import Mathlib

/-!
Verification of the search-query subsystem of the Hollo repository
(tokenizer, recursive-descent parser and predicate construction, from
`src/search/parser.ts` and `src/search/builder.ts`).

The TypeScript source is embedded shallowly:
* strings are `List Char`;
* the token/AST tagged unions become inductive types;
* the tokenizer and parser `while` loops become fuel-indexed structural
  recursions (the fuel bound is discharged by the stabilization theorems
  below, which prove every loop consumes input, i.e. the source loops
  terminate);
* `null` is `Option.none`;
* host-environment behaviour that the source calls into (ECMAScript
  `Date` normalization, PostgreSQL `ILIKE` matching) is modelled by
  explicit functions, documented at their definitions.
-/

namespace Hollo

/-- Models the JavaScript regular-expression class `\s` used by the
tokenizer's `isWhitespace` (ECMAScript WhiteSpace ∪ LineTerminator). -/
def isWhitespace (c : Char) : Bool :=
  c = ' ' || c = '\t' || c = '\n' || c.val = 11 || c.val = 12 || c = '\r' ||
  c.val = 0xa0 || c.val = 0x1680 || (0x2000 ≤ c.val && c.val ≤ 0x200a) ||
  c.val = 0x2028 || c.val = 0x2029 || c.val = 0x202f || c.val = 0x205f ||
  c.val = 0x3000 || c.val = 0xfeff

/-- The tokenizer's `isSpecial`: parenthesis characters. -/
def isSpecial (c : Char) : Bool := c = '(' || c = ')'

/-- A character that continues a word token: neither whitespace nor a
parenthesis (the condition of the word-scanning loop in `tokenize`). -/
def wordChar (c : Char) : Bool := !isWhitespace c && !isSpecial c

/-- Models ECMAScript `String.prototype.toLowerCase` restricted to ASCII
(the only case mapping exercised by operator names and values here). -/
def lowerChar (c : Char) : Char :=
  if 'A' ≤ c && c ≤ 'Z' then Char.ofNat (c.toNat + 32) else c

/-- Token type of the tokenizer, a tagged union exactly as in the source
(`LPAREN`, `RPAREN`, `OR`, `NEGATION`, `OPERATOR`, `QUOTED`, `WORD`,
`EOF`); an OPERATOR token carries the lowercased name, the raw value and
the original unsplit text. -/
inductive Token where
  | lparen
  | rparen
  | or
  | negation
  | operator (name : List Char) (value : List Char) (original : List Char)
  | quoted (value : List Char)
  | word (value : List Char)
  | eof
deriving DecidableEq

/-- The quoted-string scanning loop of `tokenize`: given the opening quote
character and the characters after it, returns whether the quote was
closed, the accumulated (backslash-unescaped) value, and the remaining
input. -/
def scanQuoted (quote : Char) : List Char → (Bool × List Char × List Char)
  | [] => (false, [], [])
  | c :: rest =>
    if c = '\\' then
      match rest with
      | [] => (false, [], [])
      | d :: rest' =>
        let r := scanQuoted quote rest'
        (r.1, d :: r.2.1, r.2.2)
    else if c = quote then (true, [], rest)
    else
      let r := scanQuoted quote rest
      (r.1, c :: r.2.1, r.2.2)

/-- The word/operator classification at the end of the tokenizer loop:
an exact `OR` becomes an OR token; a word whose first colon sits strictly
inside the word is split into an OPERATOR token (lowercased name, raw
value, original text); anything else is a WORD token. -/
def classifyWord (w : List Char) : Token :=
  if w = "OR".toList then .or
  else
    let colonIndex := w.findIdx (fun c => c = ':')
    if 0 < colonIndex && colonIndex < w.length - 1 then
      .operator ((w.take colonIndex).map lowerChar) (w.drop (colonIndex + 1)) w
    else .word w

/-- Fuel-indexed form of the `tokenize` loop. Each iteration consumes at
least one character, so any fuel exceeding the input length computes the
function the source defines (`tokenizeF_stable` below). -/
def tokenizeF : Nat → List Char → List Token
  | 0, _ => []
  | _ + 1, [] => [.eof]
  | fuel + 1, c :: cs =>
    if isWhitespace c then tokenizeF fuel cs
    else if c = '(' then .lparen :: tokenizeF fuel cs
    else if c = ')' then .rparen :: tokenizeF fuel cs
    else if c = '-' && (match cs with | d :: _ => !isWhitespace d | [] => false) then
      .negation :: tokenizeF fuel cs
    else if c = '"' || c = '\'' then
      let r := scanQuoted c cs
      (if r.1 then Token.quoted r.2.1 else Token.word (c :: r.2.1)) :: tokenizeF fuel r.2.2
    else
      classifyWord ((c :: cs).takeWhile wordChar) :: tokenizeF fuel ((c :: cs).dropWhile wordChar)

/-- The tokenizer: converts input characters into tokens, terminated by EOF. -/
def tokenize (input : List Char) : List Token := tokenizeF (input.length + 1) input

/-- Valid values of the `has:` operator. -/
inductive HasValue where
  | media
  | poll
deriving DecidableEq

/-- Valid values of the `is:` operator. -/
inductive IsValue where
  | reply
  | sensitive
deriving DecidableEq

/-- The `Operator` tagged union of `src/search/types.ts`. The source's
`from` variant is called `fromOp` because `from` is reserved in Lean. -/
inductive Operator where
  | text (value : List Char)
  | has (value : HasValue)
  | is (value : IsValue)
  | language (value : List Char)
  | fromOp (value : List Char)
  | mentions (value : List Char)
  | before (value : List Char)
  | after (value : List Char)
deriving DecidableEq

/-- The search AST (`SearchNode` in `src/search/types.ts`): a leaf term
with an operator and a negation flag, or an and/or node with a list of
children. -/
inductive SearchNode where
  | term (operator : Operator) (negated : Bool)
  | and (children : List SearchNode)
  | or (children : List SearchNode)

/-- Decimal digit-string to number, as JavaScript `Number` on the digit
substrings produced by `isValidDate`. -/
def digitsToNat (l : List Char) : Nat :=
  l.foldl (fun acc c => 10 * acc + (c.toNat - '0'.toNat)) 0

/-- Gregorian leap-year rule (as used by ECMAScript `Date`). -/
def isLeapYear (y : Nat) : Bool :=
  y % 4 = 0 && (y % 100 ≠ 0 || y % 400 = 0)

/-- Number of days of month `m` (1-based) in year `y`, proleptic Gregorian. -/
def daysInMonth (y m : Nat) : Nat :=
  if m = 2 then (if isLeapYear y then 29 else 28)
  else if m = 4 || m = 6 || m = 9 || m = 11 then 30
  else 31

/-- Models the ECMAScript evaluation of
`new Date(year, month, day).getFullYear()/getMonth()/getDate()` on the
argument domain reachable from `isValidDate` (`0 ≤ month ≤ 11`,
`1 ≤ day ≤ 31`): a year argument from 0 to 99 is read as `1900 + year`,
and a day count exceeding the month's length rolls over into the
following month. -/
def jsDateYMD (year month day : Nat) : Nat × Nat × Nat :=
  let y := if year ≤ 99 then 1900 + year else year
  let dim := daysInMonth y (month + 1)
  if day ≤ dim then (y, month, day)
  else if month = 11 then (y + 1, 0, day - dim)
  else (y, month + 1, day - dim)

/-- `Parser.isValidDate`: strict `YYYY-MM-DD` shape, month 1–12 and day
1–31, then round-trip through the host `Date` normalization. -/
def isValidDate (value : List Char) : Bool :=
  match value with
  | [y1, y2, y3, y4, h1, m1, m2, h2, d1, d2] =>
    if y1.isDigit && y2.isDigit && y3.isDigit && y4.isDigit && h1 = '-' &&
       m1.isDigit && m2.isDigit && h2 = '-' && d1.isDigit && d2.isDigit then
      let year := digitsToNat [y1, y2, y3, y4]
      let month := digitsToNat [m1, m2]
      let day := digitsToNat [d1, d2]
      if month < 1 || month > 12 then false
      else if day < 1 || day > 31 then false
      else
        let r := jsDateYMD year (month - 1) day
        r.1 = year && r.2.1 = month - 1 && r.2.2 = day
    else false
  | _ => false

/-- `Parser.parseOperator`: turns an OPERATOR token's name/value into an
`Operator`, falling back to a text operator carrying the original unsplit
token text when the name is unrecognized or the value is invalid. -/
def parseOperator (name value originalText : List Char) : Operator :=
  if name = "has".toList then
    if value = "media".toList then .has .media
    else if value = "poll".toList then .has .poll
    else .text originalText
  else if name = "is".toList then
    if value = "reply".toList then .is .reply
    else if value = "sensitive".toList then .is .sensitive
    else .text originalText
  else if name = "language".toList then .language (value.map lowerChar)
  else if name = "from".toList then
    .fromOp (match value with | '@' :: rest => rest | _ => value)
  else if name = "mentions".toList then
    .mentions (match value with | '@' :: rest => rest | _ => value)
  else if name = "before".toList then
    if isValidDate value then .before value else .text originalText
  else if name = "after".toList then
    if isValidDate value then .after value else .text originalText
  else .text originalText

mutual

/-- `Parser.negateNode`: flips a term's negated flag and distributes
negation over and/or nodes by De Morgan's law. -/
def negateNode : SearchNode → SearchNode
  | .term op n => .term op (!n)
  | .or cs => .and (negateList cs)
  | .and cs => .or (negateList cs)

/-- Negation mapped over a children list (the `children.map(negateNode)`
of the source). -/
def negateList : List SearchNode → List SearchNode
  | [] => []
  | c :: cs => negateNode c :: negateList cs

end

/-- One flattening pass over already-simplified children of an `and`
node: children that are themselves `and` nodes contribute their children
in place. -/
def flattenAnd : List SearchNode → List SearchNode
  | [] => []
  | .and cs :: rest => cs ++ flattenAnd rest
  | c :: rest => c :: flattenAnd rest

/-- One flattening pass over already-simplified children of an `or` node. -/
def flattenOr : List SearchNode → List SearchNode
  | [] => []
  | .or cs :: rest => cs ++ flattenOr rest
  | c :: rest => c :: flattenOr rest

mutual

/-- `Parser.simplify`: recursively simplifies children, drops vanished
children, flattens same-type nesting, collapses empty nodes to `none`
and single-child nodes to the child. -/
def simplify : SearchNode → Option SearchNode
  | .term op n => some (.term op n)
  | .and cs =>
    match flattenAnd (simplifyList cs) with
    | [] => none
    | [c] => some c
    | fc => some (.and fc)
  | .or cs =>
    match flattenOr (simplifyList cs) with
    | [] => none
    | [c] => some c
    | fc => some (.or fc)

/-- The `children.map(simplify).filter(child ≠ null)` of the source. -/
def simplifyList : List SearchNode → List SearchNode
  | [] => []
  | c :: cs =>
    match simplify c with
    | some t => t :: simplifyList cs
    | none => simplifyList cs

end

/-- Collapse of the accumulated children list at the end of
`Parser.parseAndExpr`: zero children is `null`, one child is the child
itself, otherwise an `and` node. -/
def finishAnd : List SearchNode → Option SearchNode
  | [] => none
  | [c] => some c
  | cs => some (.and cs)

/-- Collapse of the accumulated children list at the end of
`Parser.parseOrExpr`. -/
def finishOr : List SearchNode → Option SearchNode
  | [] => none
  | [c] => some c
  | cs => some (.or cs)

/-- The `if (x) children.push(x)` pattern of the parser loops. -/
def pushNode (children : List SearchNode) : Option SearchNode → List SearchNode
  | some n => children ++ [n]
  | none => children

/-- The `if (peek == RPAREN) advance()` at the end of a group in
`Parser.parseTerm`. -/
def skipRParen : List Token → List Token
  | .rparen :: r => r
  | ts => ts

/-- The `if (inner && negated) return negateNode(inner); return inner`
of `Parser.parseTerm`. -/
def applyNegation (negated : Bool) : Option SearchNode → Option SearchNode
  | none => none
  | some n => some (if negated then negateNode n else n)

mutual

/-- `Parser.parseOrExpr`, fuel-indexed: parse a first AND-expression,
then the `("OR" andExpr)*` loop. Returns the node (or `none`) and the
unconsumed tokens. -/
def parseOrExprF : Nat → List Token → Option SearchNode × List Token
  | 0, ts => (none, ts)
  | fuel + 1, ts =>
    let first := parseAndExprF fuel ts
    parseOrLoopF fuel (pushNode [] first.1) first.2

/-- The `while (peek == OR)` loop inside `Parser.parseOrExpr`. -/
def parseOrLoopF : Nat → List SearchNode → List Token → Option SearchNode × List Token
  | 0, _, ts => (none, ts)
  | fuel + 1, children, ts =>
    match ts with
    | .or :: rest =>
      let next := parseAndExprF fuel rest
      parseOrLoopF fuel (pushNode children next.1) next.2
    | _ => (finishOr children, ts)

/-- `Parser.parseAndExpr`, fuel-indexed: the `term+` loop. -/
def parseAndExprF : Nat → List Token → Option SearchNode × List Token
  | 0, ts => (none, ts)
  | fuel + 1, ts => parseAndLoopF fuel [] ts

/-- The `while (true)` loop of `Parser.parseAndExpr`: stops at RPAREN or
EOF, stops at OR when children have been accumulated, reinterprets a
leading OR as a literal text term, and otherwise parses one term. -/
def parseAndLoopF : Nat → List SearchNode → List Token → Option SearchNode × List Token
  | 0, _, ts => (none, ts)
  | fuel + 1, children, ts =>
    match ts with
    | .or :: rest =>
      if children.isEmpty then
        parseAndLoopF fuel (children ++ [SearchNode.term (.text "OR".toList) false]) rest
      else (finishAnd children, ts)
    | .rparen :: _ => (finishAnd children, ts)
    | .eof :: _ => (finishAnd children, ts)
    | [] => (finishAnd children, ts)
    | _ =>
      let t := parseTermF fuel ts
      parseAndLoopF fuel (pushNode children t.1) t.2

/-- `Parser.parseTerm`, fuel-indexed: the leading `"-"?` negation check;
the rest of the function body is `parseTermCoreF`. -/
def parseTermF : Nat → List Token → Option SearchNode × List Token
  | 0, ts => (none, ts)
  | fuel + 1, ts =>
    match ts with
    | .negation :: rest => parseTermCoreF fuel true rest
    | _ => parseTermCoreF fuel false ts

/-- Body of `Parser.parseTerm` after the negation check: group, operator,
quoted string or word; a negated group distributes through `negateNode`. -/
def parseTermCoreF : Nat → Bool → List Token → Option SearchNode × List Token
  | 0, _, ts => (none, ts)
  | fuel + 1, negated, ts =>
    match ts with
    | .lparen :: rest =>
      let inner := parseOrExprF fuel rest
      (applyNegation negated inner.1, skipRParen inner.2)
    | .operator name value orig :: rest =>
      (some (.term (parseOperator name value orig) negated), rest)
    | .quoted v :: rest => (some (.term (.text v) negated), rest)
    | .word v :: rest => (some (.term (.text v) negated), rest)
    | _ => (none, ts)

end

/-- Fuel sufficient for the parser on a given token list: each recursive
call decreases the fuel by one, and the call depth is bounded by six
times the number of tokens plus the phase of the entry point
(`parser_stable` below). -/
def parserFuel (ts : List Token) : Nat := 6 * ts.length + 6

/-- `Parser.parse`: parse the whole stream, then simplify. -/
def parseTokens (ts : List Token) : Option SearchNode :=
  match (parseOrExprF (parserFuel ts) ts).1 with
  | some r => simplify r
  | none => none

/-- Models ECMAScript `String.prototype.trim` (strips the same `\s`-class
characters from both ends). -/
def trimJS (s : List Char) : List Char :=
  ((s.dropWhile isWhitespace).reverse.dropWhile isWhitespace).reverse

/-- The exported `parseSearchQuery` of `src/search/parser.ts`. -/
def parseSearchQuery (query : String) : Option SearchNode :=
  let trimmed := trimJS query.toList
  if trimmed.isEmpty then none
  else parseTokens (tokenize trimmed)

/-!
Structural equality tests for the nested AST type (`deriving DecidableEq`
does not handle the nested `List` occurrence, so the Boolean test and its
soundness proof are written out). -/

mutual

/-- Structural equality test on `SearchNode`. -/
def beqNode : SearchNode → SearchNode → Bool
  | .term op n, .term op' n' => op = op' && n = n'
  | .and cs, .and cs' => beqNodeList cs cs'
  | .or cs, .or cs' => beqNodeList cs cs'
  | _, _ => false

/-- Structural equality test on lists of `SearchNode`. -/
def beqNodeList : List SearchNode → List SearchNode → Bool
  | [], [] => true
  | c :: cs, c' :: cs' => beqNode c c' && beqNodeList cs cs'
  | _, _ => false

end

mutual

/-- `beqNode` decides equality. -/
theorem beqNode_iff : ∀ a b : SearchNode, beqNode a b = true ↔ a = b
  | .term op n, b => by
    cases b with
    | term op' n' => simp [beqNode]
    | and cs' => simp [beqNode]
    | or cs' => simp [beqNode]
  | .and cs, b => by
    cases b with
    | term op' n' => simp [beqNode]
    | and cs' => simpa [beqNode] using beqNodeList_iff cs cs'
    | or cs' => simp [beqNode]
  | .or cs, b => by
    cases b with
    | term op' n' => simp [beqNode]
    | and cs' => simp [beqNode]
    | or cs' => simpa [beqNode] using beqNodeList_iff cs cs'

/-- `beqNodeList` decides equality. -/
theorem beqNodeList_iff : ∀ as bs : List SearchNode, beqNodeList as bs = true ↔ as = bs
  | [], [] => by simp [beqNodeList]
  | [], _ :: _ => by simp [beqNodeList]
  | _ :: _, [] => by simp [beqNodeList]
  | a :: as, b :: bs => by
    simp [beqNodeList, Bool.and_eq_true, beqNode_iff a b, beqNodeList_iff as bs]

end

instance : DecidableEq SearchNode := fun a b =>
  if h : beqNode a b = true then .isTrue ((beqNode_iff a b).mp h)
  else .isFalse (fun e => h ((beqNode_iff a b).mpr e))

/-!
Parenthesis balance of a token stream, for the unmatched-RPAREN claim. -/

/-- Running parenthesis depth of a token stream: starting from `d` open
groups, returns the final depth, or `none` when an RPAREN appears with
no open group or an interior EOF token occurs (`tokenize` emits EOF only
terminally). -/
def depthRun : Nat → List Token → Option Nat
  | d, [] => some d
  | d, .lparen :: rest => depthRun (d + 1) rest
  | d, .rparen :: rest => if d = 0 then none else depthRun (d - 1) rest
  | _, .eof :: _ => none
  | d, _ :: rest => depthRun d rest

/-- A token stream whose parentheses are fully matched: every RPAREN
closes an open group and every group is closed by the end. -/
def balancedTokens (ts : List Token) : Prop := depthRun 0 ts = some 0

instance (ts : List Token) : Decidable (balancedTokens ts) := by
  unfold balancedTokens
  infer_instance

/-!
The text-operator predicate of `src/search/builder.ts` (`buildTextFilter`)
and a model of the storage layer's pattern matching. -/

/-- The `value.replace(/%/g, "\\%")` pass of `buildTextFilter`. -/
def replacePercent : List Char → List Char
  | [] => []
  | '%' :: rest => '\\' :: '%' :: replacePercent rest
  | c :: rest => c :: replacePercent rest

/-- The `.replace(/_/g, "\\_")` pass of `buildTextFilter`. -/
def replaceUnderscore : List Char → List Char
  | [] => []
  | '_' :: rest => '\\' :: '_' :: replaceUnderscore rest
  | c :: rest => c :: replaceUnderscore rest

/-- The escaped value computed by `buildTextFilter`: percent signs then
underscores are prefixed with a backslash. The backslash character itself
is not escaped. -/
def escapeLikeValue (value : List Char) : List Char :=
  replaceUnderscore (replacePercent value)

/-- The pattern string `%${escapedValue}%` passed to `ilike` by
`buildTextFilter`. -/
def buildTextPattern (value : List Char) : List Char :=
  '%' :: escapeLikeValue value ++ ['%']

/-- Models PostgreSQL `LIKE` pattern matching with the default escape
character `\`: `%` matches any sequence, `_` any single character,
`\c` the literal character `c`; a pattern ending in a bare escape
character matches nothing (PostgreSQL rejects such patterns). -/
def likeMatch : List Char → List Char → Bool
  | [], [] => true
  | [], _ :: _ => false
  | '%' :: p, [] => likeMatch p []
  | '%' :: p, c :: s => likeMatch p (c :: s) || likeMatch ('%' :: p) s
  | '_' :: p, _ :: s => likeMatch p s
  | '_' :: _, [] => false
  | '\\' :: e :: p, c :: s => decide (e = c) && likeMatch p s
  | '\\' :: _ :: _, [] => false
  | ['\\'], _ => false
  | e :: p, c :: s => decide (e = c) && likeMatch p s
  | _ :: _, [] => false
termination_by p s => p.length + s.length

/-- Models PostgreSQL `ILIKE` (ASCII case folding of both sides, then
`LIKE`). -/
def ilikeMatches (p s : List Char) : Bool :=
  likeMatch (p.map lowerChar) (s.map lowerChar)

/-- Whether the post content `s` matches the text-operator filter built
by `buildTextFilter` for the literal search value `value`. -/
def textFilterMatches (value s : List Char) : Bool :=
  ilikeMatches (buildTextPattern value) s

/-- Modelled from the spec: the property the spec claims for the text
filter, namely that the search value occurs in the content as a literal
substring under case-insensitive comparison. -/
def SubstringCI (value s : List Char) : Prop :=
  ∃ pre post, s.map lowerChar = pre ++ value.map lowerChar ++ post

/-- Modelled from the spec: a strict `YYYY-MM-DD` string denoting a real
proleptic-Gregorian calendar date (month 1–12, day 1–31, and the day
exists in that month of that year, so `2024-02-30` is rejected). This is
the acceptance condition the date-operator claim states. -/
def claimRealDate (value : List Char) : Bool :=
  match value with
  | [y1, y2, y3, y4, h1, m1, m2, h2, d1, d2] =>
    if y1.isDigit && y2.isDigit && y3.isDigit && y4.isDigit && h1 = '-' &&
       m1.isDigit && m2.isDigit && h2 = '-' && d1.isDigit && d2.isDigit then
      let year := digitsToNat [y1, y2, y3, y4]
      let month := digitsToNat [m1, m2]
      let day := digitsToNat [d1, d2]
      1 ≤ month && month ≤ 12 && 1 ≤ day && day ≤ 31 && day ≤ daysInMonth year month
    else false
  | _ => false

/-!
Shapes used by the precedence claim: streams of bare words separated by
OR keywords, and the conjunction node a run of words parses to. -/

/-- The text term a single word parses to. -/
def textTerm (w : List Char) : SearchNode := .term (.text w) false

/-- The list of text terms of a run of words. -/
def textTerms (ws : List (List Char)) : List SearchNode := ws.map textTerm

/-- The node a nonempty OR-free run of words parses to: a lone word is a
bare term, two or more words form one conjunction. -/
def runNode (run : List (List Char)) : SearchNode :=
  match run with
  | [w] => textTerm w
  | _ => .and (textTerms run)

/-- Token stream of word runs separated by single OR tokens. -/
def runsTokens : List (List (List Char)) → List Token
  | [] => []
  | [r] => r.map Token.word
  | r :: rs => r.map Token.word ++ Token.or :: runsTokens rs

/-!
The simplification invariant: and/or nodes have at least two children and
no child of the same kind. -/

mutual

/-- An AST in simplified form: every `and`/`or` node has at least two
children, none of which is a node of the same kind. -/
def simplifiedNode : SearchNode → Bool
  | .term _ _ => true
  | .and cs => decide (2 ≤ cs.length) && simplifiedListNotAnd cs
  | .or cs => decide (2 ≤ cs.length) && simplifiedListNotOr cs

/-- Children of an `and` node: all simplified and none an `and`. -/
def simplifiedListNotAnd : List SearchNode → Bool
  | [] => true
  | .and _ :: _ => false
  | c :: cs => simplifiedNode c && simplifiedListNotAnd cs

/-- Children of an `or` node: all simplified and none an `or`. -/
def simplifiedListNotOr : List SearchNode → Bool
  | [] => true
  | .or _ :: _ => false
  | c :: cs => simplifiedNode c && simplifiedListNotOr cs

end

/-- A token stream whose head `Parser.parseTerm` always consumes:
negation, group opener, operator, quoted string or word. -/
def consumableHead : List Token → Bool
  | .lparen :: _ => true
  | .negation :: _ => true
  | .operator _ _ _ :: _ => true
  | .quoted _ :: _ => true
  | .word _ :: _ => true
  | _ => false

/-!
Termination of the tokenizer loop: the remaining input shrinks at every
iteration, so all sufficiently large fuels agree. -/

theorem scanQuoted_rest_le (q : Char) :
    ∀ l : List Char, (scanQuoted q l).2.2.length ≤ l.length
  | [] => le_rfl
  | [c] => by
    simp only [scanQuoted]
    split_ifs <;> simp [scanQuoted]
  | c :: d :: rest' => by
    simp only [scanQuoted]
    split_ifs with h1 h2
    · have ih := scanQuoted_rest_le q rest'
      simp only [List.length_cons]
      omega
    · simp
    · have ih := scanQuoted_rest_le q (d :: rest')
      simp only [List.length_cons] at ih ⊢
      omega

theorem tokenizeF_stable :
    ∀ fuel l, l.length < fuel → tokenizeF fuel l = tokenize l := by
  intro fuel
  induction fuel using Nat.strong_induction_on with
  | _ fuel ih =>
    intro l hl
    obtain ⟨k, rfl⟩ : ∃ k, fuel = k + 1 := ⟨fuel - 1, by omega⟩
    match l with
    | [] => simp [tokenizeF, tokenize]
    | c :: cs =>
      have hcs : cs.length < k := by simpa using hl
      show tokenizeF (k + 1) (c :: cs) = tokenizeF (cs.length + 1 + 1) (c :: cs)
      simp only [tokenizeF]
      have stepTok : ∀ x : List Char, x.length ≤ cs.length →
          tokenizeF k x = tokenizeF (cs.length + 1) x := by
        intro x hx
        rw [ih k (by omega) x (by omega), ih (cs.length + 1) (by omega) x (by omega)]
      split_ifs with h1 h2 h3 h4 h5 h6
      · exact stepTok cs le_rfl
      · rw [stepTok cs le_rfl]
      · rw [stepTok cs le_rfl]
      · rw [stepTok cs le_rfl]
      · rw [stepTok _ (scanQuoted_rest_le c cs)]
      · rw [stepTok _ (scanQuoted_rest_le c cs)]
      · have hw : wordChar c = true := by
          simp only [wordChar, isSpecial, Bool.and_eq_true, Bool.not_eq_true']
          constructor
          · simpa using h1
          · simp only [Bool.or_eq_false_iff, decide_eq_false_iff_not]
            exact ⟨h2, h3⟩
        have hdrop : ((c :: cs).dropWhile wordChar).length ≤ cs.length := by
          rw [List.dropWhile_cons, if_pos hw]
          exact (List.dropWhile_sublist wordChar).length_le
        rw [stepTok _ hdrop]

/-!
Termination of the parser: the unconsumed suffix never grows, a term with
a consumable head strictly consumes, and all sufficiently large fuels
agree (the loops of the source terminate). -/

theorem parser_rest_le : ∀ fuel,
    (∀ ts, (parseOrExprF fuel ts).2.length ≤ ts.length) ∧
    (∀ children ts, (parseOrLoopF fuel children ts).2.length ≤ ts.length) ∧
    (∀ ts, (parseAndExprF fuel ts).2.length ≤ ts.length) ∧
    (∀ children ts, (parseAndLoopF fuel children ts).2.length ≤ ts.length) ∧
    (∀ ts, (parseTermF fuel ts).2.length ≤ ts.length) ∧
    (∀ negated ts, (parseTermCoreF fuel negated ts).2.length ≤ ts.length) := by
  intro fuel
  induction fuel with
  | zero =>
    refine ⟨?_, ?_, ?_, ?_, ?_, ?_⟩ <;> intros <;>
      simp [parseOrExprF, parseOrLoopF, parseAndExprF, parseAndLoopF, parseTermF,
        parseTermCoreF]
  | succ k ih =>
    obtain ⟨ihOr, ihOrL, ihAnd, ihAndL, ihTerm, ihCore⟩ := ih
    have hskip : ∀ ts : List Token, (skipRParen ts).length ≤ ts.length := by
      intro ts
      match ts with
      | [] => simp [skipRParen]
      | .rparen :: r => simp [skipRParen]
      | .lparen :: r | .or :: r | .negation :: r | .operator _ _ _ :: r
      | .quoted _ :: r | .word _ :: r | .eof :: r => simp [skipRParen]
    refine ⟨?_, ?_, ?_, ?_, ?_, ?_⟩
    · intro ts
      simp only [parseOrExprF]
      exact le_trans (ihOrL _ _) (ihAnd _)
    · intro children ts
      match ts with
      | [] => simp [parseOrLoopF]
      | .or :: rest =>
        simp only [parseOrLoopF]
        have h1 := ihAnd rest
        have h2 := ihOrL (pushNode children (parseAndExprF k rest).1) (parseAndExprF k rest).2
        simp only [List.length_cons]
        omega
      | .lparen :: rest | .rparen :: rest | .negation :: rest | .operator _ _ _ :: rest
      | .quoted _ :: rest | .word _ :: rest | .eof :: rest => simp [parseOrLoopF]
    · intro ts
      simp only [parseAndExprF]
      exact ihAndL _ _
    · intro children ts
      match ts with
      | [] => simp [parseAndLoopF]
      | .or :: rest =>
        simp only [parseAndLoopF]
        split
        · have := ihAndL (children ++ [SearchNode.term (.text "OR".toList) false]) rest
          simp only [List.length_cons]
          omega
        · simp
      | .rparen :: rest | .eof :: rest => simp [parseAndLoopF]
      | .lparen :: rest | .negation :: rest | .operator _ _ _ :: rest
      | .quoted _ :: rest | .word _ :: rest =>
        simp only [parseAndLoopF]
        exact le_trans (ihAndL _ _) (ihTerm _)
    · intro ts
      match ts with
      | [] => simpa [parseTermF] using ihCore false []
      | .negation :: rest =>
        simp only [parseTermF]
        exact le_trans (ihCore true rest) (by simp)
      | .lparen :: rest | .rparen :: rest | .or :: rest | .operator _ _ _ :: rest
      | .quoted _ :: rest | .word _ :: rest | .eof :: rest =>
        simpa [parseTermF] using ihCore false _
    · intro negated ts
      match ts with
      | [] => simp [parseTermCoreF]
      | .lparen :: rest =>
        simp only [parseTermCoreF]
        exact le_trans (hskip _) (le_trans (ihOr rest) (by simp))
      | .operator _ _ _ :: rest | .quoted _ :: rest | .word _ :: rest =>
        simp [parseTermCoreF]
      | .rparen :: rest | .or :: rest | .negation :: rest | .eof :: rest =>
        simp [parseTermCoreF]

theorem skipRParen_length_le : ∀ ts : List Token, (skipRParen ts).length ≤ ts.length := by
  intro ts
  match ts with
  | [] => simp [skipRParen]
  | .rparen :: r => simp [skipRParen]
  | .lparen :: r | .or :: r | .negation :: r | .operator _ _ _ :: r
  | .quoted _ :: r | .word _ :: r | .eof :: r => simp [skipRParen]

theorem parseTermF_consumes :
    ∀ fuel ts, 2 ≤ fuel → consumableHead ts = true →
      (parseTermF fuel ts).2.length < ts.length := by
  intro fuel ts hf hc
  obtain ⟨k, rfl⟩ : ∃ k, fuel = k + 2 := ⟨fuel - 2, by omega⟩
  match ts with
  | [] => simp [consumableHead] at hc
  | .negation :: rest =>
    simp only [parseTermF]
    have h := (parser_rest_le (k + 1)).2.2.2.2.2 true rest
    simp only [List.length_cons]
    omega
  | .lparen :: rest =>
    simp only [parseTermF, parseTermCoreF]
    have h1 := (parser_rest_le k).1 rest
    have h2 := skipRParen_length_le (parseOrExprF k rest).2
    simp only [List.length_cons]
    omega
  | .operator _ _ _ :: rest | .quoted _ :: rest | .word _ :: rest =>
    simp [parseTermF, parseTermCoreF]
  | .rparen :: rest | .or :: rest | .eof :: rest => simp [consumableHead] at hc

theorem handleTermStep {a b : Nat} (children : List SearchNode)
    (hTerm : ∀ f ts, 6 * ts.length + 1 < a → 6 * ts.length + 1 < f →
      parseTermF a ts = parseTermF f ts)
    (hAndLoop : ∀ f ch ts, 6 * ts.length + 2 < a → 6 * ts.length + 2 < f →
      parseAndLoopF a ch ts = parseAndLoopF f ch ts)
    {t : Token} {rest : List Token}
    (h1 : 6 * (t :: rest).length + 2 < a + 1) (h2 : 6 * (t :: rest).length + 2 < b + 1)
    (hc : consumableHead (t :: rest) = true) :
    parseAndLoopF a (pushNode children (parseTermF a (t :: rest)).1) (parseTermF a (t :: rest)).2 =
    parseAndLoopF b (pushNode children (parseTermF b (t :: rest)).1) (parseTermF b (t :: rest)).2 := by
  have hl : (t :: rest).length = rest.length + 1 := by simp
  have e1 : parseTermF a (t :: rest) = parseTermF b (t :: rest) :=
    hTerm b (t :: rest) (by omega) (by omega)
  rw [e1]
  have hterm := parseTermF_consumes b (t :: rest) (by omega) hc
  exact hAndLoop b _ _ (by omega) (by omega)

theorem parser_stable : ∀ fuel,
    (∀ f ts, 6 * ts.length + 5 < fuel → 6 * ts.length + 5 < f →
      parseOrExprF fuel ts = parseOrExprF f ts) ∧
    (∀ f children ts, 6 * ts.length + 4 < fuel → 6 * ts.length + 4 < f →
      parseOrLoopF fuel children ts = parseOrLoopF f children ts) ∧
    (∀ f ts, 6 * ts.length + 3 < fuel → 6 * ts.length + 3 < f →
      parseAndExprF fuel ts = parseAndExprF f ts) ∧
    (∀ f children ts, 6 * ts.length + 2 < fuel → 6 * ts.length + 2 < f →
      parseAndLoopF fuel children ts = parseAndLoopF f children ts) ∧
    (∀ f ts, 6 * ts.length + 1 < fuel → 6 * ts.length + 1 < f →
      parseTermF fuel ts = parseTermF f ts) ∧
    (∀ f negated ts, 6 * ts.length < fuel → 6 * ts.length < f →
      parseTermCoreF fuel negated ts = parseTermCoreF f negated ts) := by
  intro fuel
  induction fuel using Nat.strong_induction_on with
  | _ fuel ih =>
    refine ⟨?_, ?_, ?_, ?_, ?_, ?_⟩
    · intro f ts h1 h2
      obtain ⟨a, rfl⟩ : ∃ a, fuel = a + 1 := ⟨fuel - 1, by omega⟩
      obtain ⟨b, rfl⟩ : ∃ b, f = b + 1 := ⟨f - 1, by omega⟩
      simp only [parseOrExprF]
      have e1 : parseAndExprF a ts = parseAndExprF b ts :=
        (ih a (by omega)).2.2.1 b ts (by omega) (by omega)
      rw [e1]
      have hrest := (parser_rest_le b).2.2.1 ts
      exact (ih a (by omega)).2.1 b _ _ (by omega) (by omega)
    · intro f children ts h1 h2
      obtain ⟨a, rfl⟩ : ∃ a, fuel = a + 1 := ⟨fuel - 1, by omega⟩
      obtain ⟨b, rfl⟩ : ∃ b, f = b + 1 := ⟨f - 1, by omega⟩
      match ts with
      | [] => simp [parseOrLoopF]
      | .or :: rest =>
        have hl : (Token.or :: rest).length = rest.length + 1 := by simp
        simp only [parseOrLoopF]
        have e1 : parseAndExprF a rest = parseAndExprF b rest :=
          (ih a (by omega)).2.2.1 b rest (by omega) (by omega)
        rw [e1]
        have hrest := (parser_rest_le b).2.2.1 rest
        exact (ih a (by omega)).2.1 b _ _ (by omega) (by omega)
      | .lparen :: rest | .rparen :: rest | .negation :: rest | .operator _ _ _ :: rest
      | .quoted _ :: rest | .word _ :: rest | .eof :: rest => simp [parseOrLoopF]
    · intro f ts h1 h2
      obtain ⟨a, rfl⟩ : ∃ a, fuel = a + 1 := ⟨fuel - 1, by omega⟩
      obtain ⟨b, rfl⟩ : ∃ b, f = b + 1 := ⟨f - 1, by omega⟩
      simp only [parseAndExprF]
      exact (ih a (by omega)).2.2.2.1 b _ ts (by omega) (by omega)
    · intro f children ts h1 h2
      obtain ⟨a, rfl⟩ : ∃ a, fuel = a + 1 := ⟨fuel - 1, by omega⟩
      obtain ⟨b, rfl⟩ : ∃ b, f = b + 1 := ⟨f - 1, by omega⟩
      match ts with
      | [] => simp [parseAndLoopF]
      | .or :: rest =>
        have hl : (Token.or :: rest).length = rest.length + 1 := by simp
        simp only [parseAndLoopF]
        split_ifs with hc
        · exact (ih a (by omega)).2.2.2.1 b _ rest (by omega) (by omega)
        · rfl
      | .rparen :: rest | .eof :: rest => simp [parseAndLoopF]
      | .lparen :: rest | .negation :: rest | .operator _ _ _ :: rest
      | .quoted _ :: rest | .word _ :: rest =>
        simp only [parseAndLoopF]
        exact handleTermStep children ((ih a (by omega)).2.2.2.2.1)
          ((ih a (by omega)).2.2.2.1) h1 h2 (by simp [consumableHead])
    · intro f ts h1 h2
      obtain ⟨a, rfl⟩ : ∃ a, fuel = a + 1 := ⟨fuel - 1, by omega⟩
      obtain ⟨b, rfl⟩ : ∃ b, f = b + 1 := ⟨f - 1, by omega⟩
      match ts with
      | .negation :: rest =>
        have hl : (Token.negation :: rest).length = rest.length + 1 := by simp
        simp only [parseTermF]
        exact (ih a (by omega)).2.2.2.2.2 b true rest (by omega) (by omega)
      | [] =>
        simp only [parseTermF]
        exact (ih a (by omega)).2.2.2.2.2 b false [] (by omega) (by omega)
      | .lparen :: rest | .rparen :: rest | .or :: rest | .operator _ _ _ :: rest
      | .quoted _ :: rest | .word _ :: rest | .eof :: rest =>
        simp only [parseTermF]
        exact (ih a (by omega)).2.2.2.2.2 b false _ (by omega) (by omega)
    · intro f negated ts h1 h2
      obtain ⟨a, rfl⟩ : ∃ a, fuel = a + 1 := ⟨fuel - 1, by omega⟩
      obtain ⟨b, rfl⟩ : ∃ b, f = b + 1 := ⟨f - 1, by omega⟩
      match ts with
      | [] => simp [parseTermCoreF]
      | .lparen :: rest =>
        have hl : (Token.lparen :: rest).length = rest.length + 1 := by simp
        simp only [parseTermCoreF]
        have e1 : parseOrExprF a rest = parseOrExprF b rest :=
          (ih a (by omega)).1 b rest (by omega) (by omega)
        rw [e1]
      | .operator _ _ _ :: rest | .quoted _ :: rest | .word _ :: rest =>
        simp [parseTermCoreF]
      | .rparen :: rest | .or :: rest | .negation :: rest | .eof :: rest =>
        simp [parseTermCoreF]

/-!
Fuel-free forms of the parser functions (each applied at a sufficient
fuel; by `parser_stable` any larger fuel computes the same value, so
these are the functions the source defines) together with their
one-step unfolding equations. -/

/-- `Parser.parseOrExpr` at sufficient fuel. -/
def parseOrExpr (ts : List Token) : Option SearchNode × List Token :=
  parseOrExprF (6 * ts.length + 6) ts

/-- The OR loop of `Parser.parseOrExpr` at sufficient fuel. -/
def parseOrLoop (children : List SearchNode) (ts : List Token) :
    Option SearchNode × List Token :=
  parseOrLoopF (6 * ts.length + 5) children ts

/-- `Parser.parseAndExpr` at sufficient fuel. -/
def parseAndExpr (ts : List Token) : Option SearchNode × List Token :=
  parseAndExprF (6 * ts.length + 4) ts

/-- The term loop of `Parser.parseAndExpr` at sufficient fuel. -/
def parseAndLoop (children : List SearchNode) (ts : List Token) :
    Option SearchNode × List Token :=
  parseAndLoopF (6 * ts.length + 3) children ts

/-- `Parser.parseTerm` at sufficient fuel. -/
def parseTerm (ts : List Token) : Option SearchNode × List Token :=
  parseTermF (6 * ts.length + 2) ts

/-- Body of `Parser.parseTerm` after the negation check, at sufficient
fuel. -/
def parseTermCore (negated : Bool) (ts : List Token) :
    Option SearchNode × List Token :=
  parseTermCoreF (6 * ts.length + 1) negated ts

theorem parseOrExprF_eq_parseOrExpr {fuel : Nat} {ts : List Token}
    (h : 6 * ts.length + 5 < fuel) : parseOrExprF fuel ts = parseOrExpr ts :=
  (parser_stable fuel).1 (6 * ts.length + 6) ts h (by omega)

theorem parseOrExpr_rest_le (ts : List Token) :
    (parseOrExpr ts).2.length ≤ ts.length :=
  (parser_rest_le _).1 ts

theorem parseOrLoop_rest_le (children : List SearchNode) (ts : List Token) :
    (parseOrLoop children ts).2.length ≤ ts.length :=
  (parser_rest_le _).2.1 children ts

theorem parseAndExpr_rest_le (ts : List Token) :
    (parseAndExpr ts).2.length ≤ ts.length :=
  (parser_rest_le _).2.2.1 ts

theorem parseAndLoop_rest_le (children : List SearchNode) (ts : List Token) :
    (parseAndLoop children ts).2.length ≤ ts.length :=
  (parser_rest_le _).2.2.2.1 children ts

theorem parseTerm_rest_le (ts : List Token) :
    (parseTerm ts).2.length ≤ ts.length :=
  (parser_rest_le _).2.2.2.2.1 ts

theorem parseTermCore_rest_le (negated : Bool) (ts : List Token) :
    (parseTermCore negated ts).2.length ≤ ts.length :=
  (parser_rest_le _).2.2.2.2.2 negated ts

theorem parseTerm_consumes {ts : List Token} (hc : consumableHead ts = true) :
    (parseTerm ts).2.length < ts.length := by
  have hne : ts ≠ [] := by rintro rfl; simp [consumableHead] at hc
  have : 1 ≤ ts.length := by
    cases ts with
    | nil => simp at hne
    | cons t r => simp
  exact parseTermF_consumes _ ts (by omega) hc

theorem parseOrExpr_eq (ts : List Token) :
    parseOrExpr ts =
      parseOrLoop (pushNode [] (parseAndExpr ts).1) (parseAndExpr ts).2 := by
  have hrest : (parseAndExprF (6 * ts.length + 4) ts).2.length <= ts.length :=
    (parser_rest_le _).2.2.1 ts
  simp only [parseOrExpr, parseOrLoop, parseAndExpr]
  rw [show 6 * ts.length + 6 = 6 * ts.length + 5 + 1 from by omega]
  rw [parseOrExprF.eq_2]
  rw [(parser_stable (6 * ts.length + 5)).2.2.1 (6 * ts.length + 4) ts (by omega) (by omega)]
  exact (parser_stable (6 * ts.length + 5)).2.1
    (6 * (parseAndExprF (6 * ts.length + 4) ts).2.length + 5) _ _ (by omega) (by omega)

theorem parseOrLoop_nil (children : List SearchNode) :
    parseOrLoop children [] = (finishOr children, []) := by
  simp only [parseOrLoop]
  rw [show 6 * ([] : List Token).length + 5 = 4 + 1 from by simp]
  rw [parseOrLoopF.eq_3 _ _ _ (by simp)]

theorem parseOrLoop_or (children : List SearchNode) (rest : List Token) :
    parseOrLoop children (.or :: rest) =
      parseOrLoop (pushNode children (parseAndExpr rest).1) (parseAndExpr rest).2 := by
  have hrest : (parseAndExprF (6 * rest.length + 4) rest).2.length <= rest.length :=
    (parser_rest_le _).2.2.1 rest
  simp only [parseOrLoop, parseAndExpr]
  rw [show 6 * (Token.or :: rest).length + 5 = 6 * rest.length + 10 + 1 from by
    simp only [List.length_cons]; omega]
  rw [parseOrLoopF.eq_2]
  rw [(parser_stable (6 * rest.length + 10)).2.2.1 (6 * rest.length + 4) rest
    (by omega) (by omega)]
  exact (parser_stable (6 * rest.length + 10)).2.1
    (6 * (parseAndExprF (6 * rest.length + 4) rest).2.length + 5) _ _ (by omega) (by omega)

theorem parseOrLoop_stop (children : List SearchNode) {t : Token} (rest : List Token)
    (h : t ≠ .or) :
    parseOrLoop children (t :: rest) = (finishOr children, t :: rest) := by
  simp only [parseOrLoop]
  rw [show 6 * (t :: rest).length + 5 = 6 * rest.length + 10 + 1 from by
    simp only [List.length_cons]; omega]
  rw [parseOrLoopF.eq_3 _ _ _ (by cases t <;> simp_all)]

theorem parseAndExpr_eq (ts : List Token) :
    parseAndExpr ts = parseAndLoop [] ts := by
  simp only [parseAndExpr, parseAndLoop]
  rw [show 6 * ts.length + 4 = 6 * ts.length + 3 + 1 from by omega]
  rw [parseAndExprF.eq_2]

theorem parseAndLoop_nil (children : List SearchNode) :
    parseAndLoop children [] = (finishAnd children, []) := by
  simp only [parseAndLoop]
  rw [show 6 * ([] : List Token).length + 3 = 2 + 1 from by simp]
  rw [parseAndLoopF.eq_5]

theorem parseAndLoop_or (children : List SearchNode) (rest : List Token) :
    parseAndLoop children (.or :: rest) =
      if children.isEmpty then
        parseAndLoop (children ++ [SearchNode.term (.text "OR".toList) false]) rest
      else (finishAnd children, .or :: rest) := by
  simp only [parseAndLoop]
  rw [show 6 * (Token.or :: rest).length + 3 = 6 * rest.length + 8 + 1 from by
    simp only [List.length_cons]; omega]
  rw [parseAndLoopF.eq_2]
  split_ifs with hc
  · exact (parser_stable (6 * rest.length + 8)).2.2.2.1 (6 * rest.length + 3) _ rest
      (by omega) (by omega)
  · rfl

theorem parseAndLoop_rparen (children : List SearchNode) (rest : List Token) :
    parseAndLoop children (.rparen :: rest) = (finishAnd children, .rparen :: rest) := by
  simp only [parseAndLoop]
  rw [show 6 * (Token.rparen :: rest).length + 3 = 6 * rest.length + 8 + 1 from by
    simp only [List.length_cons]; omega]
  rw [parseAndLoopF.eq_3]

theorem parseAndLoop_eof (children : List SearchNode) (rest : List Token) :
    parseAndLoop children (.eof :: rest) = (finishAnd children, .eof :: rest) := by
  simp only [parseAndLoop]
  rw [show 6 * (Token.eof :: rest).length + 3 = 6 * rest.length + 8 + 1 from by
    simp only [List.length_cons]; omega]
  rw [parseAndLoopF.eq_4]

theorem parseAndLoop_term (children : List SearchNode) {t : Token} {rest : List Token}
    (hc : consumableHead (t :: rest) = true) :
    parseAndLoop children (t :: rest) =
      parseAndLoop (pushNode children (parseTerm (t :: rest)).1)
        (parseTerm (t :: rest)).2 := by
  have hcons : (parseTermF (6 * rest.length + 8) (t :: rest)).2.length < (t :: rest).length :=
    parseTermF_consumes _ _ (by omega) hc
  have hrl : (t :: rest).length = rest.length + 1 := by simp
  simp only [parseAndLoop, parseTerm]
  rw [show 6 * (t :: rest).length + 3 = 6 * rest.length + 8 + 1 from by
    simp only [List.length_cons]; omega]
  rw [show 6 * (t :: rest).length + 2 = 6 * rest.length + 8 from by
    simp only [List.length_cons]; omega]
  rw [parseAndLoopF.eq_6 _ _ _
    (by intro r h; rw [List.cons.injEq] at h; obtain ⟨rfl, -⟩ := h;
        simp [consumableHead] at hc)
    (by intro r h; rw [List.cons.injEq] at h; obtain ⟨rfl, -⟩ := h;
        simp [consumableHead] at hc)
    (by intro r h; rw [List.cons.injEq] at h; obtain ⟨rfl, -⟩ := h;
        simp [consumableHead] at hc)
    (by intro h; simp at h)]
  exact (parser_stable (6 * rest.length + 8)).2.2.2.1
    (6 * (parseTermF (6 * rest.length + 8) (t :: rest)).2.length + 3) _ _
    (by omega) (by omega)

theorem parseTerm_negation (rest : List Token) :
    parseTerm (.negation :: rest) = parseTermCore true rest := by
  simp only [parseTerm, parseTermCore]
  rw [show 6 * (Token.negation :: rest).length + 2 = 6 * rest.length + 7 + 1 from by
    simp only [List.length_cons]; omega]
  rw [parseTermF.eq_2]
  exact (parser_stable (6 * rest.length + 7)).2.2.2.2.2 (6 * rest.length + 1) true rest
    (by omega) (by omega)

theorem parseTerm_not_negation {ts : List Token}
    (h : ∀ rest, ts ≠ .negation :: rest) :
    parseTerm ts = parseTermCore false ts := by
  simp only [parseTerm, parseTermCore]
  rw [show 6 * ts.length + 2 = 6 * ts.length + 1 + 1 from by omega]
  rw [parseTermF.eq_3 _ _ (fun rest he => h rest he)]

theorem parseTermCore_lparen (negated : Bool) (rest : List Token) :
    parseTermCore negated (.lparen :: rest) =
      (applyNegation negated (parseOrExpr rest).1, skipRParen (parseOrExpr rest).2) := by
  simp only [parseTermCore, parseOrExpr]
  rw [show 6 * (Token.lparen :: rest).length + 1 = 6 * rest.length + 6 + 1 from by
    simp only [List.length_cons]; omega]
  rw [parseTermCoreF.eq_2]

theorem parseTermCore_operator (negated : Bool) (name value orig : List Char)
    (rest : List Token) :
    parseTermCore negated (.operator name value orig :: rest) =
      (some (.term (parseOperator name value orig) negated), rest) := by
  simp only [parseTermCore]
  rw [show 6 * (Token.operator name value orig :: rest).length + 1 =
      6 * rest.length + 6 + 1 from by simp only [List.length_cons]; omega]
  rw [parseTermCoreF.eq_3]

theorem parseTermCore_quoted (negated : Bool) (v : List Char) (rest : List Token) :
    parseTermCore negated (.quoted v :: rest) =
      (some (.term (.text v) negated), rest) := by
  simp only [parseTermCore]
  rw [show 6 * (Token.quoted v :: rest).length + 1 = 6 * rest.length + 6 + 1 from by
    simp only [List.length_cons]; omega]
  rw [parseTermCoreF.eq_4]

theorem parseTermCore_word (negated : Bool) (v : List Char) (rest : List Token) :
    parseTermCore negated (.word v :: rest) =
      (some (.term (.text v) negated), rest) := by
  simp only [parseTermCore]
  rw [show 6 * (Token.word v :: rest).length + 1 = 6 * rest.length + 6 + 1 from by
    simp only [List.length_cons]; omega]
  rw [parseTermCoreF.eq_5]

theorem parseTermCore_stop (negated : Bool) {ts : List Token}
    (h : consumableHead ts = false ∨ (∃ rest, ts = .negation :: rest)) :
    parseTermCore negated ts = (none, ts) := by
  have hns : ∀ t (rest : List Token), ts = t :: rest → t ≠ .lparen ∧
      (∀ name value orig, t ≠ .operator name value orig) ∧
      (∀ v, t ≠ .quoted v) ∧ (∀ v, t ≠ .word v) := by
    rintro t rest rfl
    rcases h with h | ⟨rest2, h2⟩
    · cases t <;> simp_all [consumableHead]
    · rw [List.cons.injEq] at h2
      obtain ⟨rfl, -⟩ := h2
      simp
  match ts with
  | [] =>
    simp only [parseTermCore]
    rw [show 6 * ([] : List Token).length + 1 = 0 + 1 from by simp]
    rw [parseTermCoreF.eq_6 _ _ _ (by simp) (by simp) (by simp) (by simp)]
  | t :: rest =>
    obtain ⟨h1, h2, h3, h4⟩ := hns t rest rfl
    simp only [parseTermCore]
    rw [show 6 * (t :: rest).length + 1 = 6 * rest.length + 6 + 1 from by
      simp only [List.length_cons]; omega]
    rw [parseTermCoreF.eq_6 _ _ _
      (by intro r he; rw [List.cons.injEq] at he; exact h1 he.1)
      (by intro nm v o r he; rw [List.cons.injEq] at he; exact h2 nm v o he.1)
      (by intro v r he; rw [List.cons.injEq] at he; exact h3 v he.1)
      (by intro v r he; rw [List.cons.injEq] at he; exact h4 v he.1)]

/-- `Parser.parse` expressed through the fuel-free entry point. -/
theorem parseTokens_eq (ts : List Token) :
    parseTokens ts =
      match (parseOrExpr ts).1 with
      | some r => simplify r
      | none => none := rfl

/-!
Unfolding equations for `negateNode`. -/

theorem negateList_eq_map : ∀ cs, negateList cs = cs.map negateNode := by
  intro cs
  induction cs with
  | nil => simp [negateList]
  | cons c cs ih => simp [negateList, ih]

theorem negateNode_term (op : Operator) (n : Bool) :
    negateNode (.term op n) = .term op (!n) := by
  simp [negateNode]

theorem negateNode_or (cs : List SearchNode) :
    negateNode (.or cs) = .and (cs.map negateNode) := by
  simp [negateNode, negateList_eq_map]

theorem negateNode_and (cs : List SearchNode) :
    negateNode (.and cs) = .or (cs.map negateNode) := by
  simp [negateNode, negateList_eq_map]

/-- Claim C2, general part: parsing a negated group gives exactly the
`negateNode` image of parsing the same group unnegated, on any token
suffix. -/
theorem parseTerm_negated_group (ts : List Token) :
    parseTerm (.negation :: .lparen :: ts) =
      ((parseTerm (.lparen :: ts)).1.map negateNode, (parseTerm (.lparen :: ts)).2) := by
  rw [parseTerm_negation, parseTermCore_lparen,
    parseTerm_not_negation (fun rest h => by
      rw [List.cons.injEq] at h
      exact Token.noConfusion h.1),
    parseTermCore_lparen]
  cases h : (parseOrExpr ts).1 with
  | none => simp [applyNegation]
  | some n => simp [applyNegation]

/-- C2: negating a parenthesized group distributes negation by De
Morgan's law instead of wrapping the group: `parseTerm` maps the group's
parse through `negateNode`, which swaps and/or nodes over recursively
negated children and flips the negated flag of term leaves; in
particular `-(a OR b)` parses identically to `-a -b`. -/
theorem claim_C2_demorgan_negation :
    (∀ ts : List Token, parseTerm (.negation :: .lparen :: ts) =
      ((parseTerm (.lparen :: ts)).1.map negateNode, (parseTerm (.lparen :: ts)).2)) ∧
    (∀ cs, negateNode (.or cs) = .and (cs.map negateNode)) ∧
    (∀ cs, negateNode (.and cs) = .or (cs.map negateNode)) ∧
    (∀ op n, negateNode (.term op n) = .term op (!n)) ∧
    parseSearchQuery "-(a OR b)" = parseSearchQuery "-a -b" ∧
    parseSearchQuery "-(a OR b)" =
      some (.and [.term (.text "a".toList) true, .term (.text "b".toList) true]) :=
  ⟨parseTerm_negated_group, negateNode_or, negateNode_and, negateNode_term,
    by decide, by decide⟩

/-- C5: empty or fully-collapsing input yields `null`, and an empty
group next to real terms is dropped without affecting siblings. -/
theorem claim_C5_null_collapse :
    parseSearchQuery "" = none ∧
    parseSearchQuery "   " = none ∧
    parseSearchQuery "() () ()" = none ∧
    parseSearchQuery "() hello" = some (.term (.text "hello".toList) false) :=
  ⟨by decide, by decide, by decide, by decide⟩

/-- C4: malformed operator values fall back to a plain text operator
carrying the original unsplit token text: `has:`/`is:` with an
unrecognized value, or any unrecognized operator name, yields
`text originalText`; concretely `has:invalid` parses to the single text
term `"has:invalid"`. -/
theorem claim_C4_operator_fallback :
    (∀ name value orig : List Char,
      ((name = "has".toList ∧ value ≠ "media".toList ∧ value ≠ "poll".toList) ∨
       (name = "is".toList ∧ value ≠ "reply".toList ∧ value ≠ "sensitive".toList) ∨
       (name ≠ "has".toList ∧ name ≠ "is".toList ∧ name ≠ "language".toList ∧
        name ≠ "from".toList ∧ name ≠ "mentions".toList ∧ name ≠ "before".toList ∧
        name ≠ "after".toList)) →
      parseOperator name value orig = .text orig) ∧
    parseSearchQuery "has:invalid" = some (.term (.text "has:invalid".toList) false) := by
  constructor
  · intro name value orig h
    rcases h with ⟨rfl, hv1, hv2⟩ | ⟨rfl, hv1, hv2⟩ | ⟨h1, h2, h3, h4, h5, h6, h7⟩
    · simp at hv1 hv2
      simp [parseOperator, hv1, hv2]
    · simp at hv1 hv2
      simp [parseOperator, hv1, hv2]
    · simp at h1 h2 h3 h4 h5 h6 h7
      simp [parseOperator, h1, h2, h3, h4, h5, h6, h7]
  · decide

theorem parseTerm_word (v : List Char) (rest : List Token) :
    parseTerm (.word v :: rest) = (some (.term (.text v) false), rest) := by
  rw [parseTerm_not_negation (fun r h => by
    rw [List.cons.injEq] at h
    exact Token.noConfusion h.1), parseTermCore_word]

theorem finishAnd_textTerms {r : List (List Char)} (h : r ≠ []) :
    finishAnd (textTerms r) = some (runNode r) := by
  match r with
  | [w] => simp [finishAnd, textTerms, runNode]
  | w1 :: w2 :: rest => simp [finishAnd, textTerms, runNode]

theorem runsTokens_cons {r : List (List Char)} {rs : List (List (List Char))}
    (h : rs ≠ []) :
    runsTokens (r :: rs) = r.map Token.word ++ .or :: runsTokens rs := by
  match rs with
  | r2 :: rs2 => simp [runsTokens]

/-- The term loop turns a run of word tokens into the corresponding text
terms and stops at the run's end (end of input, an OR, an RPAREN or an
EOF token). -/
theorem parseAndLoop_words :
    ∀ (ws : List (List Char)) (children : List SearchNode) (rest : List Token),
      (rest = [] ∨ (∃ r, rest = .or :: r) ∨ (∃ r, rest = .rparen :: r) ∨
        (∃ r, rest = .eof :: r)) →
      (children ≠ [] ∨ ws ≠ []) →
      parseAndLoop children (ws.map Token.word ++ rest) =
        (finishAnd (children ++ textTerms ws), rest) := by
  intro ws
  induction ws with
  | nil =>
    intro children rest hstop hne
    simp only [List.map_nil, List.nil_append, textTerms, List.append_nil]
    have hch : children ≠ [] := by
      rcases hne with h | h
      · exact h
      · exact absurd rfl h
    rcases hstop with rfl | ⟨r, rfl⟩ | ⟨r, rfl⟩ | ⟨r, rfl⟩
    · exact parseAndLoop_nil children
    · rw [parseAndLoop_or]
      rw [if_neg (by simpa using hch)]
    · exact parseAndLoop_rparen children r
    · exact parseAndLoop_eof children r
  | cons w ws ih =>
    intro children rest hstop hne
    simp only [List.map_cons, List.cons_append]
    rw [parseAndLoop_term children (by simp [consumableHead])]
    rw [parseTerm_word]
    simp only [pushNode]
    rw [ih (children ++ [SearchNode.term (Operator.text w) false]) rest hstop (Or.inl (by simp))]
    simp [textTerms, textTerm]

/-- The OR loop joins word runs: each `OR`-separated nonempty run
contributes its conjunction node. -/
theorem parseOrLoop_runs :
    ∀ (rs : List (List (List Char))) (children : List SearchNode),
      rs ≠ [] → (∀ r ∈ rs, r ≠ []) →
      parseOrLoop children (Token.or :: runsTokens rs) =
        (finishOr (children ++ rs.map runNode), []) := by
  intro rs
  induction rs with
  | nil => intro children h; exact absurd rfl h
  | cons r rs ih =>
    intro children _ hne
    rw [parseOrLoop_or]
    match rs with
    | [] =>
      simp only [runsTokens]
      rw [parseAndExpr_eq]
      have := parseAndLoop_words r [] [] (Or.inl rfl)
        (Or.inr (hne r (by simp)))
      simp only [List.append_nil] at this
      rw [this]
      simp only [List.nil_append, finishAnd_textTerms (hne r (by simp)), pushNode]
      rw [parseOrLoop_nil]
      simp
    | r2 :: rs2 =>
      rw [runsTokens_cons (by simp)]
      rw [parseAndExpr_eq]
      rw [parseAndLoop_words r [] (.or :: runsTokens (r2 :: rs2))
        (Or.inr (Or.inl ⟨_, rfl⟩)) (Or.inr (hne r (by simp)))]
      simp only [List.nil_append, finishAnd_textTerms (hne r (by simp)), pushNode]
      rw [ih (children ++ [runNode r]) (by simp) (fun x hx => hne x (by simp [hx]))]
      simp

/-- Claim C1, general part: a stream of word runs separated by OR
keywords parses to the disjunction of the runs' conjunctions. -/
theorem parseOrExpr_runs (rs : List (List (List Char)))
    (hrs : rs ≠ []) (hne : ∀ r ∈ rs, r ≠ []) :
    parseOrExpr (runsTokens rs) = (finishOr (rs.map runNode), []) := by
  match rs with
  | [r] =>
    simp only [runsTokens]
    rw [parseOrExpr_eq, parseAndExpr_eq]
    have := parseAndLoop_words r [] [] (Or.inl rfl) (Or.inr (hne r (by simp)))
    simp only [List.append_nil] at this
    rw [this]
    simp only [List.nil_append, finishAnd_textTerms (hne r (by simp)), pushNode]
    rw [parseOrLoop_nil]
    simp [finishOr]
  | r :: r2 :: rs2 =>
    rw [runsTokens_cons (by simp)]
    rw [parseOrExpr_eq, parseAndExpr_eq]
    rw [parseAndLoop_words r [] (.or :: runsTokens (r2 :: rs2))
      (Or.inr (Or.inl ⟨_, rfl⟩)) (Or.inr (hne r (by simp)))]
    simp only [List.nil_append, finishAnd_textTerms (hne r (by simp)), pushNode]
    rw [parseOrLoop_runs (r2 :: rs2) [runNode r] (by simp)
      (fun x hx => hne x (by simp [hx]))]
    simp

/-- C1: implicit AND binds tighter than OR. In general the parser groups
every maximal OR-free run of word terms into one conjunction and joins
the runs by disjunction; concretely `a b OR c` parses as
`(a AND b) OR c` and `a OR b c` parses as `a OR (b AND c)`. -/
theorem claim_C1_precedence :
    (∀ rs : List (List (List Char)), rs ≠ [] → (∀ r ∈ rs, r ≠ []) →
      parseOrExpr (runsTokens rs) = (finishOr (rs.map runNode), [])) ∧
    parseSearchQuery "a b OR c" =
      some (.or [.and [.term (.text "a".toList) false, .term (.text "b".toList) false],
        .term (.text "c".toList) false]) ∧
    parseSearchQuery "a OR b c" =
      some (.or [.term (.text "a".toList) false,
        .and [.term (.text "b".toList) false, .term (.text "c".toList) false]]) :=
  ⟨parseOrExpr_runs, by decide, by decide⟩

/-- Witness for C1 at the concrete runs of `a b OR c`. -/
theorem claim_C1_precedence_witness :
    parseOrExpr (runsTokens [["a".toList, "b".toList], ["c".toList]]) =
      (finishOr ([["a".toList, "b".toList], ["c".toList]].map runNode), []) :=
  claim_C1_precedence.1 [["a".toList, "b".toList], ["c".toList]]
    (by decide) (by decide)

theorem parseOperator_before (value orig : List Char) :
    parseOperator "before".toList value orig =
      (if isValidDate value then .before value else .text orig) := by
  simp [parseOperator]

theorem parseOperator_after (value orig : List Char) :
    parseOperator "after".toList value orig =
      (if isValidDate value then .after value else .text orig) := by
  simp [parseOperator]

/-- Round-trip equivalence for the modelled `Date` normalization: with a
month between 1 and 12, the constructor-read-back comparison succeeds
exactly when the day fits the month and the year field is at least 100
(two-digit years are remapped to the 1900s and can never round-trip). -/
theorem jsRoundTrip_iff (y m d : Nat) (hm1 : 1 ≤ m) (hm2 : m ≤ 12) :
    ((jsDateYMD y (m - 1) d).1 = y ∧ (jsDateYMD y (m - 1) d).2.1 = m - 1 ∧
      (jsDateYMD y (m - 1) d).2.2 = d) ↔ (d ≤ daysInMonth y m ∧ 100 ≤ y) := by
  have hmm : m - 1 + 1 = m := by omega
  unfold jsDateYMD
  simp only [hmm]
  split_ifs with hy hdim hm11 hdim2 hm112 <;> simp <;> omega

/-- The code's date check accepts exactly the real calendar dates whose
year field is at least 100: the host `Date` constructor reads a year
argument from 0 to 99 as `1900 + year`, so those years always fail the
round-trip comparison. -/
theorem isValidDate_iff (value : List Char) :
    isValidDate value = true ↔
      (claimRealDate value = true ∧ ¬ digitsToNat (value.take 4) ≤ 99) := by
  match value with
  | [] | [_] | [_, _] | [_, _, _] | [_, _, _, _] | [_, _, _, _, _]
  | [_, _, _, _, _, _] | [_, _, _, _, _, _, _] | [_, _, _, _, _, _, _, _]
  | [_, _, _, _, _, _, _, _, _] =>
    simp [isValidDate, claimRealDate]
  | c1 :: c2 :: c3 :: c4 :: c5 :: c6 :: c7 :: c8 :: c9 :: c10 :: c11 :: rest =>
    simp [isValidDate, claimRealDate]
  | [y1, y2, y3, y4, h1, m1, m2, h2, d1, d2] =>
    simp only [isValidDate, claimRealDate, List.take]
    split_ifs with hdig hm hd
    · refine iff_of_false (by simp) ?_
      simp only [Bool.or_eq_true, Bool.and_eq_true, decide_eq_true_eq] at hm ⊢
      intro h
      omega
    · refine iff_of_false (by simp) ?_
      simp only [Bool.or_eq_true, Bool.and_eq_true, decide_eq_true_eq] at hd ⊢
      intro h
      omega
    · simp only [Bool.or_eq_true, Bool.and_eq_true, decide_eq_true_eq, and_assoc] at hm hd ⊢
      rw [jsRoundTrip_iff _ _ _ (by omega) (by omega)]
      omega
    · simp

/-- C6 (amended): a `before:`/`after:` operator token yields a date
operator carrying the raw value if and only if the value is a strict
`YYYY-MM-DD` real calendar date (month 1-12, day 1-31, day existing in
that month) whose year field is at least 100; years 0000-0099, although
real calendar dates, fail the host `Date` two-digit-year round-trip and
fall back, like every other invalid value, to a text operator carrying
the original token text. -/
theorem claim_C6_date_validation_amended (value orig : List Char) :
    (parseOperator "before".toList value orig = .before value ↔
      (claimRealDate value = true ∧ ¬ digitsToNat (value.take 4) ≤ 99)) ∧
    (parseOperator "after".toList value orig = .after value ↔
      (claimRealDate value = true ∧ ¬ digitsToNat (value.take 4) ≤ 99)) ∧
    (¬ (claimRealDate value = true ∧ ¬ digitsToNat (value.take 4) ≤ 99) →
      parseOperator "before".toList value orig = .text orig ∧
      parseOperator "after".toList value orig = .text orig) := by
  rw [← isValidDate_iff]
  rw [parseOperator_before, parseOperator_after]
  by_cases h : isValidDate value = true
  · simp [h]
  · simp [h]

/-- Counterexample to C6 as stated: `0099-01-01` is a strict
`YYYY-MM-DD` real calendar date (January 1st of year 99), yet the parser
rejects it and falls back to a text operator, because the host `Date`
constructor reads the year 99 as 1999 and the round-trip fails. -/
theorem claim_C6_counterexample :
    claimRealDate "0099-01-01".toList = true ∧
    parseOperator "before".toList "0099-01-01".toList "before:0099-01-01".toList =
      .text "before:0099-01-01".toList ∧
    parseSearchQuery "before:0099-01-01" =
      some (.term (.text "before:0099-01-01".toList) false) :=
  ⟨by decide, by decide, by decide⟩

/-- C7 (amended): a candidate word that is not `OR` and does not begin
with a quote, a parenthesis, whitespace or a negation dash tokenizes to
exactly one token, classified by the index of the first colon in the
word: when that first colon sits strictly between the ends, the word is
split there into an OPERATOR token (lowercased name, raw value, original
text); otherwise — including when the first colon is leading, even if a
later colon sits at an interior index — a WORD token is emitted. -/
theorem claim_C7_tokenize_word_amended (w : List Char)
    (hne : w ≠ []) (hw : ∀ c ∈ w, wordChar c = true)
    (hq : ∀ c, w.head? = some c → c ≠ '"' ∧ c ≠ '\'' ∧ c ≠ '-') :
    tokenize w = [classifyWord w, .eof] ∧
    (w ≠ "OR".toList →
      ((0 < w.findIdx (fun c => c = ':') ∧
        w.findIdx (fun c => c = ':') < w.length - 1) →
        classifyWord w = .operator ((w.take (w.findIdx (fun c => c = ':'))).map lowerChar)
          (w.drop (w.findIdx (fun c => c = ':') + 1)) w) ∧
      (¬ (0 < w.findIdx (fun c => c = ':') ∧
          w.findIdx (fun c => c = ':') < w.length - 1) →
        classifyWord w = .word w)) ∧
    (w = "OR".toList → classifyWord w = .or) := by
  obtain ⟨c, cs, rfl⟩ : ∃ c cs, w = c :: cs := by
    cases w with
    | nil => exact absurd rfl hne
    | cons c cs => exact ⟨c, cs, rfl⟩
  have hc := hw c (by simp)
  obtain ⟨hq1, hq2, hq3⟩ := hq c rfl
  simp only [wordChar, Bool.and_eq_true, Bool.not_eq_true', isSpecial,
    Bool.or_eq_false_iff, decide_eq_false_iff_not] at hc
  obtain ⟨hws, hlp, hrp⟩ := hc
  refine ⟨?_, ?_, ?_⟩
  · show tokenizeF ((c :: cs).length + 1) (c :: cs) = _
    match cs, hw with
    | [], hw =>
      rw [show ([c] : List Char).length + 1 = 1 + 1 from by simp]
      rw [tokenizeF.eq_4]
      rw [if_neg (by simp [hws]), if_neg hlp, if_neg hrp,
        if_neg (by simp), if_neg (by simp [hq1, hq2])]
      rw [List.takeWhile_eq_self_iff.mpr hw, List.dropWhile_eq_nil_iff.mpr hw]
      simp [tokenizeF]
    | d :: tail, hw =>
      rw [show (c :: d :: tail).length + 1 = ((d :: tail).length + 1) + 1 from by simp]
      rw [tokenizeF.eq_3]
      rw [if_neg (by simp [hws]), if_neg hlp, if_neg hrp,
        if_neg (by simp [hq3]), if_neg (by simp [hq1, hq2])]
      rw [List.takeWhile_eq_self_iff.mpr hw, List.dropWhile_eq_nil_iff.mpr hw]
      simp [tokenizeF]
  · intro hor
    constructor
    · intro hci
      simp only [classifyWord, if_neg hor]
      rw [if_pos (by simpa using hci)]
    · intro hci
      simp only [classifyWord, if_neg hor]
      rw [if_neg (by simpa using hci)]
  · intro hor
    simp [classifyWord, hor]

/-- Whether a node is an `and` node. -/
def isAndNode : SearchNode → Bool
  | .and _ => true
  | _ => false

/-- Whether a node is an `or` node. -/
def isOrNode : SearchNode → Bool
  | .or _ => true
  | _ => false

theorem simplifiedListNotAnd_iff : ∀ cs, simplifiedListNotAnd cs = true ↔
    ∀ c ∈ cs, simplifiedNode c = true ∧ isAndNode c = false := by
  intro cs
  induction cs with
  | nil => simp [simplifiedListNotAnd]
  | cons c cs ih =>
    cases c with
    | term op b => simp [simplifiedListNotAnd, ih, isAndNode, simplifiedNode]
    | and cs' => simp [simplifiedListNotAnd, isAndNode]
    | or cs' => simp [simplifiedListNotAnd, ih, isAndNode]

theorem simplifiedListNotOr_iff : ∀ cs, simplifiedListNotOr cs = true ↔
    ∀ c ∈ cs, simplifiedNode c = true ∧ isOrNode c = false := by
  intro cs
  induction cs with
  | nil => simp [simplifiedListNotOr]
  | cons c cs ih =>
    cases c with
    | term op b => simp [simplifiedListNotOr, ih, isOrNode, simplifiedNode]
    | and cs' => simp [simplifiedListNotOr, ih, isOrNode]
    | or cs' => simp [simplifiedListNotOr, isOrNode]

theorem flattenAnd_spec : ∀ l, (∀ c ∈ l, simplifiedNode c = true) →
    ∀ u ∈ flattenAnd l, simplifiedNode u = true ∧ isAndNode u = false := by
  intro l
  induction l with
  | nil => simp [flattenAnd]
  | cons c cs ih =>
    intro h u hu
    cases c with
    | and cs' =>
      simp only [flattenAnd, List.mem_append] at hu
      rcases hu with hu | hu
      · have hc := h (.and cs') (by simp)
        simp only [simplifiedNode, Bool.and_eq_true] at hc
        exact (simplifiedListNotAnd_iff cs').mp hc.2 u hu
      · exact ih (fun x hx => h x (by simp [hx])) u hu
    | term op b =>
      simp only [flattenAnd, List.mem_cons] at hu
      rcases hu with rfl | hu
      · exact ⟨h _ (by simp), by simp [isAndNode]⟩
      · exact ih (fun x hx => h x (by simp [hx])) u hu
    | or cs' =>
      simp only [flattenAnd, List.mem_cons] at hu
      rcases hu with rfl | hu
      · exact ⟨h _ (by simp), by simp [isAndNode]⟩
      · exact ih (fun x hx => h x (by simp [hx])) u hu

theorem flattenOr_spec : ∀ l, (∀ c ∈ l, simplifiedNode c = true) →
    ∀ u ∈ flattenOr l, simplifiedNode u = true ∧ isOrNode u = false := by
  intro l
  induction l with
  | nil => simp [flattenOr]
  | cons c cs ih =>
    intro h u hu
    cases c with
    | or cs' =>
      simp only [flattenOr, List.mem_append] at hu
      rcases hu with hu | hu
      · have hc := h (.or cs') (by simp)
        simp only [simplifiedNode, Bool.and_eq_true] at hc
        exact (simplifiedListNotOr_iff cs').mp hc.2 u hu
      · exact ih (fun x hx => h x (by simp [hx])) u hu
    | term op b =>
      simp only [flattenOr, List.mem_cons] at hu
      rcases hu with rfl | hu
      · exact ⟨h _ (by simp), by simp [isOrNode]⟩
      · exact ih (fun x hx => h x (by simp [hx])) u hu
    | and cs' =>
      simp only [flattenOr, List.mem_cons] at hu
      rcases hu with rfl | hu
      · exact ⟨h _ (by simp), by simp [isOrNode]⟩
      · exact ih (fun x hx => h x (by simp [hx])) u hu

theorem flattenAnd_of_no_and : ∀ l, (∀ c ∈ l, isAndNode c = false) →
    flattenAnd l = l := by
  intro l
  induction l with
  | nil => simp [flattenAnd]
  | cons c cs ih =>
    intro h
    cases c with
    | and cs' => exact absurd (h (.and cs') (by simp)) (by simp [isAndNode])
    | term op b => simp [flattenAnd, ih (fun x hx => h x (by simp [hx]))]
    | or cs' => simp [flattenAnd, ih (fun x hx => h x (by simp [hx]))]

theorem flattenOr_of_no_or : ∀ l, (∀ c ∈ l, isOrNode c = false) →
    flattenOr l = l := by
  intro l
  induction l with
  | nil => simp [flattenOr]
  | cons c cs ih =>
    intro h
    cases c with
    | or cs' => exact absurd (h (.or cs') (by simp)) (by simp [isOrNode])
    | term op b => simp [flattenOr, ih (fun x hx => h x (by simp [hx]))]
    | and cs' => simp [flattenOr, ih (fun x hx => h x (by simp [hx]))]

mutual

/-- Every node `simplify` returns satisfies the simplification
invariant: and/or nodes have at least two children and no child of the
same kind. -/
theorem simplify_simplified : ∀ n t, simplify n = some t → simplifiedNode t = true
  | .term op b, t, h => by
    simp only [simplify, Option.some.injEq] at h
    subst h
    simp [simplifiedNode]
  | .and cs, t, h => by
    have hl := simplifyList_simplified cs
    have hfl := flattenAnd_spec (simplifyList cs) hl
    simp only [simplify] at h
    rcases hfc : flattenAnd (simplifyList cs) with - | ⟨c1, - | ⟨c2, rest⟩⟩ <;>
      rw [hfc] at h hfl
    · simp at h
    · simp only [Option.some.injEq] at h
      subst h
      exact (hfl _ (by simp)).1
    · simp only [Option.some.injEq] at h
      subst h
      simp only [simplifiedNode, Bool.and_eq_true, decide_eq_true_eq]
      refine ⟨by simp, (simplifiedListNotAnd_iff _).mpr hfl⟩
  | .or cs, t, h => by
    have hl := simplifyList_simplified cs
    have hfl := flattenOr_spec (simplifyList cs) hl
    simp only [simplify] at h
    rcases hfc : flattenOr (simplifyList cs) with - | ⟨c1, - | ⟨c2, rest⟩⟩ <;>
      rw [hfc] at h hfl
    · simp at h
    · simp only [Option.some.injEq] at h
      subst h
      exact (hfl _ (by simp)).1
    · simp only [Option.some.injEq] at h
      subst h
      simp only [simplifiedNode, Bool.and_eq_true, decide_eq_true_eq]
      refine ⟨by simp, (simplifiedListNotOr_iff _).mpr hfl⟩

/-- Every surviving child in `simplifyList` output is simplified. -/
theorem simplifyList_simplified : ∀ cs, ∀ t ∈ simplifyList cs, simplifiedNode t = true
  | [] => by simp [simplifyList]
  | c :: cs => by
    intro t ht
    rcases hc : simplify c with - | u <;> simp only [simplifyList] at ht <;>
      rw [hc] at ht
    · exact simplifyList_simplified cs t ht
    · simp only [List.mem_cons] at ht
      rcases ht with rfl | ht
      · exact simplify_simplified c t hc
      · exact simplifyList_simplified cs t ht

end

mutual

/-- Simplification is the identity on already-simplified nodes. -/
theorem simplify_of_simplified : ∀ n, simplifiedNode n = true → simplify n = some n
  | .term op b, _ => by simp [simplify]
  | .and cs, h => by
    simp only [simplifiedNode, Bool.and_eq_true, decide_eq_true_eq] at h
    obtain ⟨hlen, hch⟩ := h
    have hpt := (simplifiedListNotAnd_iff cs).mp hch
    have hsl : simplifyList cs = cs :=
      simplifyList_of_simplified cs (fun c hc => (hpt c hc).1)
    have hfl : flattenAnd cs = cs :=
      flattenAnd_of_no_and cs (fun c hc => (hpt c hc).2)
    simp only [simplify, hsl, hfl]
    match cs, hlen with
    | c1 :: c2 :: rest, _ => rfl
  | .or cs, h => by
    simp only [simplifiedNode, Bool.and_eq_true, decide_eq_true_eq] at h
    obtain ⟨hlen, hch⟩ := h
    have hpt := (simplifiedListNotOr_iff cs).mp hch
    have hsl : simplifyList cs = cs :=
      simplifyList_of_simplified cs (fun c hc => (hpt c hc).1)
    have hfl : flattenOr cs = cs :=
      flattenOr_of_no_or cs (fun c hc => (hpt c hc).2)
    simp only [simplify, hsl, hfl]
    match cs, hlen with
    | c1 :: c2 :: rest, _ => rfl

/-- `simplifyList` is the identity on lists of simplified nodes. -/
theorem simplifyList_of_simplified :
    ∀ cs, (∀ c ∈ cs, simplifiedNode c = true) → simplifyList cs = cs
  | [], _ => by simp [simplifyList]
  | c :: cs, h => by
    simp only [simplifyList]
    rw [simplify_of_simplified c (h c (by simp)),
      simplifyList_of_simplified cs (fun x hx => h x (by simp [hx]))]

end

/-- C8: every non-null AST returned by `parseSearchQuery` satisfies the
simplification invariant — each and/or node has at least two children,
none of which is a node of the same kind (`simplifiedNode`) — and
re-running the simplification pass on it returns the identical tree. -/
theorem claim_C8_simplification_invariant :
    ∀ (s : String) (t : SearchNode), parseSearchQuery s = some t →
      simplifiedNode t = true ∧ simplify t = some t := by
  intro s t h
  simp only [parseSearchQuery] at h
  split_ifs at h with htrim
  rw [parseTokens_eq] at h
  rcases hp : (parseOrExpr (tokenize (trimJS s.toList))).1 with - | r <;> rw [hp] at h
  · simp at h
  · have h1 := simplify_simplified r t h
    exact ⟨h1, simplify_of_simplified t h1⟩

/-- Witness for C8 at the concrete input `a b OR c`. -/
theorem claim_C8_simplification_invariant_witness :
    simplifiedNode (.or [.and [.term (.text "a".toList) false,
      .term (.text "b".toList) false], .term (.text "c".toList) false]) = true ∧
    simplify (.or [.and [.term (.text "a".toList) false,
      .term (.text "b".toList) false], .term (.text "c".toList) false]) =
      some (.or [.and [.term (.text "a".toList) false,
        .term (.text "b".toList) false], .term (.text "c".toList) false]) :=
  claim_C8_simplification_invariant "a b OR c" _ (by decide)

/-- Counterexample to C7 as stated: the word `:a:b` contains a colon at
index 2, strictly between 0 and length-1, so the claim requires an
OPERATOR token split at that colon; but the tokenizer tests the index of
the first colon (index 0 here) and emits a WORD token instead. -/
theorem claim_C7_counterexample :
    (∃ i, ":a:b".toList[i]? = some ':' ∧ 0 < i ∧ i < ":a:b".toList.length - 1) ∧
    tokenize ":a:b".toList = [.word ":a:b".toList, .eof] :=
  ⟨⟨2, by decide, by decide, by decide⟩, by decide⟩

/-- Witness for C4 at the concrete inputs `has:invalid` and `foo:bar`. -/
theorem claim_C4_operator_fallback_witness :
    parseOperator "has".toList "invalid".toList "has:invalid".toList =
      .text "has:invalid".toList ∧
    parseOperator "foo".toList "bar".toList "foo:bar".toList =
      .text "foo:bar".toList :=
  ⟨claim_C4_operator_fallback.1 "has".toList "invalid".toList "has:invalid".toList
      (Or.inl ⟨rfl, by decide, by decide⟩),
    claim_C4_operator_fallback.1 "foo".toList "bar".toList "foo:bar".toList
      (Or.inr (Or.inr (by refine ⟨?_, ?_, ?_, ?_, ?_, ?_, ?_⟩ <;> decide)))⟩

/-!
Theory of the modelled `LIKE` matcher, for the wildcard-escaping claim. -/

theorem likeMatch_lit_cons {e : Char} (he1 : e ≠ '%') (he2 : e ≠ '_')
    (he3 : e ≠ '\\') (p : List Char) (c : Char) (s : List Char) :
    likeMatch (e :: p) (c :: s) = (decide (e = c) && likeMatch p s) :=
  likeMatch.eq_10 e p c s (fun h => he1 h) (fun h => he2 h)
    (fun _ _ h _ => he3 h) (fun h _ => he3 h)

theorem likeMatch_lit_nil {e : Char} (he1 : e ≠ '%') (he2 : e ≠ '_')
    (he3 : e ≠ '\\') (p : List Char) :
    likeMatch (e :: p) [] = false :=
  likeMatch.eq_11 e p (fun h => he1 h) (fun h => he2 h)
    (fun _ _ h _ => he3 h) (fun h _ => he3 h)

theorem likeMatch_pct_end : ∀ t, likeMatch ['%'] t = true := by
  intro t
  induction t with
  | nil => rw [likeMatch.eq_3, likeMatch.eq_1]
  | cons c t ih => rw [likeMatch.eq_4, ih, likeMatch.eq_2]; rfl

theorem likeMatch_pct_iff (p : List Char) :
    ∀ s, likeMatch ('%' :: p) s = true ↔ ∃ i, likeMatch p (s.drop i) = true := by
  intro s
  induction s with
  | nil =>
    rw [likeMatch.eq_3]
    simp only [List.drop_nil]
    exact ⟨fun h => ⟨0, h⟩, fun ⟨_, h⟩ => h⟩
  | cons c s ih =>
    rw [likeMatch.eq_4]
    simp only [Bool.or_eq_true, ih]
    constructor
    · rintro (h | ⟨i, h⟩)
      · exact ⟨0, h⟩
      · exact ⟨i + 1, by simpa using h⟩
    · rintro ⟨i, h⟩
      match i with
      | 0 => exact Or.inl (by simpa using h)
      | i + 1 => exact Or.inr ⟨i, by simpa using h⟩

theorem replacePercent_cons (c : Char) (v : List Char) :
    replacePercent (c :: v) =
      (if c = '%' then ['\\', '%'] else [c]) ++ replacePercent v := by
  by_cases h : c = '%'
  · subst h
    simp [replacePercent]
  · rw [if_neg h]
    simp [replacePercent, h]

theorem replaceUnderscore_cons (c : Char) (v : List Char) :
    replaceUnderscore (c :: v) =
      (if c = '_' then ['\\', '_'] else [c]) ++ replaceUnderscore v := by
  by_cases h : c = '_'
  · subst h
    simp [replaceUnderscore]
  · rw [if_neg h]
    simp [replaceUnderscore, h]

theorem escapeLikeValue_cons (c : Char) (v : List Char) :
    escapeLikeValue (c :: v) =
      (if c = '%' then ['\\', '%'] else if c = '_' then ['\\', '_'] else [c]) ++
        escapeLikeValue v := by
  unfold escapeLikeValue
  rw [replacePercent_cons]
  by_cases h1 : c = '%'
  · subst h1
    rw [if_pos rfl, if_pos rfl]
    simp [replaceUnderscore_cons]
  · rw [if_neg h1, if_neg h1]
    by_cases h2 : c = '_'
    · subst h2
      rw [if_pos rfl]
      simp [replaceUnderscore_cons]
    · rw [if_neg h2]
      simp [replaceUnderscore_cons, h2]

/-- A backslash-free escaped value followed by a closing `%` matches
exactly the strings that start with the literal value. -/
theorem likeMatch_escaped_append :
    ∀ (v : List Char), '\\' ∉ v → ∀ t,
      (likeMatch (escapeLikeValue v ++ ['%']) t = true ↔ ∃ rest, t = v ++ rest) := by
  intro v
  induction v with
  | nil =>
    intro _ t
    rw [show escapeLikeValue [] = [] from rfl]
    rw [List.nil_append, likeMatch_pct_end]
    simp
  | cons c v ih =>
    intro hb t
    simp only [List.mem_cons, not_or] at hb
    have hbc : c ≠ '\\' := fun h => hb.1 h.symm
    have hbv : '\\' ∉ v := hb.2
    rw [escapeLikeValue_cons]
    by_cases h1 : c = '%'
    · subst h1
      rw [if_pos rfl]
      simp only [List.cons_append, List.nil_append]
      match t with
      | [] =>
        rw [likeMatch.eq_8]
        simp
      | d :: t' =>
        rw [likeMatch.eq_7]
        simp only [Bool.and_eq_true, decide_eq_true_eq, ih hbv t']
        constructor
        · rintro ⟨rfl, rest, rfl⟩
          exact ⟨rest, rfl⟩
        · rintro ⟨rest, h⟩
          rw [List.cons.injEq] at h
          exact ⟨h.1.symm, rest, h.2⟩
    · rw [if_neg h1]
      by_cases h2 : c = '_'
      · subst h2
        rw [if_pos rfl]
        simp only [List.cons_append, List.nil_append]
        match t with
        | [] =>
          rw [likeMatch.eq_8]
          simp
        | d :: t' =>
          rw [likeMatch.eq_7]
          simp only [Bool.and_eq_true, decide_eq_true_eq, ih hbv t']
          constructor
          · rintro ⟨rfl, rest, rfl⟩
            exact ⟨rest, rfl⟩
          · rintro ⟨rest, h⟩
            rw [List.cons.injEq] at h
            exact ⟨h.1.symm, rest, h.2⟩
      · rw [if_neg h2]
        simp only [List.cons_append, List.nil_append]
        match t with
        | [] =>
          rw [likeMatch_lit_nil h1 h2 hbc]
          simp
        | d :: t' =>
          rw [likeMatch_lit_cons h1 h2 hbc]
          simp only [Bool.and_eq_true, decide_eq_true_eq, ih hbv t']
          constructor
          · rintro ⟨rfl, rest, rfl⟩
            exact ⟨rest, rfl⟩
          · rintro ⟨rest, h⟩
            rw [List.cons.injEq] at h
            exact ⟨h.1.symm, rest, h.2⟩

theorem lowerChar_toNat_of_upper {c : Char} (h : ('A' ≤ c && c ≤ 'Z') = true) :
    (lowerChar c).toNat = c.toNat + 32 := by
  rw [lowerChar, if_pos h]
  simp only [Bool.and_eq_true, decide_eq_true_eq] at h
  have h1 : 65 ≤ c.toNat := by
    have := h.1
    rw [Char.le_def] at this
    exact this
  have h2 : c.toNat ≤ 90 := by
    have := h.2
    rw [Char.le_def] at this
    exact this
  have hv : (c.toNat + 32).isValidChar := Or.inl (by omega)
  rw [Char.ofNat, dif_pos hv]
  simp [Char.ofNatAux, Char.toNat, UInt32.toNat, BitVec.toNat_ofNatLt]

/-- ASCII lowering fixes every character outside the letter ranges, so
equality with a non-letter such as a `LIKE` metacharacter is preserved. -/
theorem lowerChar_eq_meta {c m : Char} (hm1 : m.toNat < 97 ∨ 122 < m.toNat)
    (hm2 : m.toNat < 65 ∨ 90 < m.toNat) :
    lowerChar c = m ↔ c = m := by
  by_cases h : ('A' ≤ c && c ≤ 'Z') = true
  · have ht := lowerChar_toNat_of_upper h
    simp only [Bool.and_eq_true, decide_eq_true_eq] at h
    have h1 : 65 ≤ c.toNat := by
      have := h.1
      rw [Char.le_def] at this
      exact this
    have h2 : c.toNat ≤ 90 := by
      have := h.2
      rw [Char.le_def] at this
      exact this
    constructor
    · intro he
      rw [he] at ht
      omega
    · intro he
      subst he
      omega
  · rw [lowerChar, if_neg h]

theorem map_lowerChar_escape (v : List Char) :
    (escapeLikeValue v).map lowerChar = escapeLikeValue (v.map lowerChar) := by
  have l1 : lowerChar '%' = '%' := by decide
  have l2 : lowerChar '_' = '_' := by decide
  have l3 : lowerChar '\\' = '\\' := by decide
  induction v with
  | nil => rfl
  | cons c v ih =>
    rw [escapeLikeValue_cons, List.map_append, ih, List.map_cons, escapeLikeValue_cons]
    congr 1
    by_cases h1 : c = '%'
    · subst h1
      simp [l1, l3]
    · by_cases h2 : c = '_'
      · subst h2
        simp [l2, l3, h1]
      · rw [if_neg h1, if_neg h2,
          if_neg (fun hh => h1 ((lowerChar_eq_meta (by decide) (by decide)).mp hh)),
          if_neg (fun hh => h2 ((lowerChar_eq_meta (by decide) (by decide)).mp hh))]
        simp

/-- C9 (amended): for every text operator whose literal value does not
contain the storage layer's escape character `\`, the pattern built by
`buildTextFilter` — with `%` and `_` escaped — matches a post content
exactly when the literal value occurs in it as a case-insensitive
substring, so user-supplied `%` and `_` match only themselves; the
escape character itself is not escaped by the code, and values
containing it are not matched literally. -/
theorem claim_C9_escaping_amended (value s : List Char) (hb : '\\' ∉ value) :
    textFilterMatches value s = true ↔ SubstringCI value s := by
  have hbl : '\\' ∉ value.map lowerChar := by
    intro hmem
    rw [List.mem_map] at hmem
    obtain ⟨c, hc, hlc⟩ := hmem
    rw [lowerChar_eq_meta (by decide) (by decide)] at hlc
    exact hb (hlc ▸ hc)
  unfold textFilterMatches ilikeMatches buildTextPattern SubstringCI
  simp only [List.map_cons, List.map_append, List.map_nil, List.cons_append,
    List.nil_append, map_lowerChar_escape, show lowerChar '%' = '%' from by decide]
  rw [likeMatch_pct_iff]
  constructor
  · rintro ⟨i, h⟩
    rw [likeMatch_escaped_append _ hbl _] at h
    obtain ⟨rest, hr⟩ := h
    refine ⟨(s.map lowerChar).take i, rest, ?_⟩
    conv_lhs => rw [← List.take_append_drop i (s.map lowerChar)]
    rw [hr, List.append_assoc]
  · rintro ⟨pre, post, hsp⟩
    refine ⟨pre.length, ?_⟩
    rw [likeMatch_escaped_append _ hbl]
    refine ⟨post, ?_⟩
    rw [hsp, List.append_assoc, List.drop_left]

/-- Witness for C9: a value containing both `%` and `_` is matched as a
literal case-insensitive substring. -/
theorem claim_C9_escaping_amended_witness :
    ('\\' ∉ "50%_off".toList) ∧
    (textFilterMatches "50%_off".toList "BIG 50%_OFF SALE".toList = true ↔
      SubstringCI "50%_off".toList "BIG 50%_OFF SALE".toList) :=
  ⟨by decide, claim_C9_escaping_amended "50%_off".toList "BIG 50%_OFF SALE".toList
    (by decide)⟩

/-- Counterexample to C9 as stated: the `LIKE` escape character `\` is
itself a metacharacter the code does not escape. Searching for the
single character `\` produces the pattern `%\%`, which matches a post
containing a literal `%` and not the backslash itself. -/
theorem claim_C9_counterexample :
    textFilterMatches "\\".toList "%".toList = true ∧
    ¬ SubstringCI "\\".toList "%".toList := by
  constructor
  · show likeMatch _ _ = true
    simp [buildTextPattern, escapeLikeValue, replacePercent, replaceUnderscore,
      lowerChar, likeMatch]
  · rintro ⟨pre, post, h⟩
    have hmem : '\\' ∈ ("%".toList).map lowerChar := by
      rw [h]
      simp [show lowerChar '\\' = '\\' from by decide]
    revert hmem
    decide

/-- C3: the search pipeline is total. The tokenizer loop consumes at
least one character per iteration, so its fuel-indexed form agrees with
`tokenize` at every sufficient fuel; likewise every parser loop consumes
tokens (a term with a consumable head strictly consumes, and no parser
call ever grows its input), so the fuel-indexed parser agrees with
`parseOrExpr` at every sufficient fuel; and `parseSearchQuery` returns a
value on every input, including unmatched quotes, deeply nested
unmatched parentheses and isolated `-` or `OR`. -/
theorem claim_C3_totality :
    (∀ fuel l, l.length < fuel → tokenizeF fuel l = tokenize l) ∧
    (∀ fuel ts, 6 * ts.length + 5 < fuel → parseOrExprF fuel ts = parseOrExpr ts) ∧
    (∀ ts, (parseOrExpr ts).2.length ≤ ts.length) ∧
    (∀ ts, consumableHead ts = true → (parseTerm ts).2.length < ts.length) ∧
    parseSearchQuery "((((((((((x" = some (.term (.text "x".toList) false) ∧
    parseSearchQuery "\"unclosed" = some (.term (.text "\"unclosed".toList) false) ∧
    parseSearchQuery "-" = some (.term (.text "-".toList) false) ∧
    parseSearchQuery "OR" = some (.term (.text "OR".toList) false) :=
  ⟨tokenizeF_stable, fun _ _ h => parseOrExprF_eq_parseOrExpr h, parseOrExpr_rest_le,
    fun _ h => parseTerm_consumes h, by decide, by decide, by decide, by decide⟩

/-- Witness for C3 at concrete fuels and token lists. -/
theorem claim_C3_totality_witness :
    tokenizeF 10 "a(".toList = tokenize "a(".toList ∧
    parseOrExprF 50 (tokenize "a b".toList) = parseOrExpr (tokenize "a b".toList) ∧
    (parseTerm [Token.word "x".toList]).2.length < [Token.word "x".toList].length :=
  ⟨claim_C3_totality.1 10 "a(".toList (by decide),
    claim_C3_totality.2.1 50 (tokenize "a b".toList) (by decide),
    claim_C3_totality.2.2.2.1 [Token.word "x".toList] (by decide)⟩


/-!
Toward C10: behaviour of the parser on a balanced prefix followed by a
stray RPAREN. `depthRun` is compositional over append and shifts
uniformly in the starting depth; a balanced group splits at its closing
RPAREN into a balanced body and a balanced tail. -/

theorem depthRun_append (a b : List Token) : ∀ d,
    depthRun d (a ++ b) = (depthRun d a).bind fun e => depthRun e b := by
  induction a with
  | nil => intro d; rfl
  | cons t r ih =>
    intro d
    cases t with
    | lparen => simpa only [List.cons_append, depthRun] using ih (d + 1)
    | rparen =>
      simp only [List.cons_append, depthRun]
      split_ifs with h
      · rfl
      · exact ih (d - 1)
    | eof => rfl
    | or => simpa only [List.cons_append, depthRun] using ih d
    | negation => simpa only [List.cons_append, depthRun] using ih d
    | operator name value orig => simpa only [List.cons_append, depthRun] using ih d
    | quoted v => simpa only [List.cons_append, depthRun] using ih d
    | word v => simpa only [List.cons_append, depthRun] using ih d

theorem depthRun_shift (a : List Token) : ∀ d e k, depthRun d a = some e →
    depthRun (d + k) a = some (e + k) := by
  induction a with
  | nil =>
    intro d e k h
    simp only [depthRun, Option.some.injEq] at h ⊢
    omega
  | cons t r ih =>
    intro d e k h
    cases t with
    | lparen =>
      simp only [depthRun] at h ⊢
      rw [show d + k + 1 = d + 1 + k from by omega]
      exact ih (d + 1) e k h
    | rparen =>
      simp only [depthRun] at h ⊢
      split_ifs at h with h0
      rw [if_neg (by omega)]
      rw [show d + k - 1 = d - 1 + k from by omega]
      exact ih (d - 1) e k h
    | eof =>
      simp only [depthRun] at h
      exact Option.noConfusion h
    | or => exact ih d e k h
    | negation => exact ih d e k h
    | operator name value orig => exact ih d e k h
    | quoted v => exact ih d e k h
    | word v => exact ih d e k h

theorem depthRun_split : ∀ n (ts : List Token), ts.length ≤ n → ∀ d,
    depthRun (d + 1) ts = some 0 →
    ∃ body tail, ts = body ++ Token.rparen :: tail ∧ depthRun 0 body = some 0 ∧
      depthRun d tail = some 0 := by
  intro n
  induction n with
  | zero =>
    intro ts hn d h
    have hts : ts = [] := List.length_eq_zero.mp (Nat.le_zero.mp hn)
    subst hts
    simp [depthRun] at h
  | succ n ih =>
    intro ts hn d h
    match ts, hn, h with
    | [], _, h => simp [depthRun] at h
    | .eof :: r, _, h => simp [depthRun] at h
    | .rparen :: r, hn, h =>
      refine ⟨[], r, rfl, rfl, ?_⟩
      simpa [depthRun] using h
    | .lparen :: r, hn, h =>
      have hr : r.length ≤ n := by simp only [List.length_cons] at hn; omega
      have h2 : depthRun (d + 1 + 1) r = some 0 := by simpa [depthRun] using h
      obtain ⟨b1, t1, he1, hb1, ht1⟩ := ih r hr (d + 1) h2
      have ht1n : t1.length ≤ n := by
        have := congrArg List.length he1
        simp only [List.length_append, List.length_cons] at this
        omega
      obtain ⟨b2, t2, he2, hb2, ht2⟩ := ih t1 ht1n d ht1
      subst he1; subst he2
      refine ⟨Token.lparen :: b1 ++ Token.rparen :: b2, t2, by simp, ?_, ht2⟩
      have hb1s : depthRun 1 b1 = some 1 := by
        simpa using depthRun_shift b1 0 0 1 hb1
      show depthRun 1 (b1 ++ Token.rparen :: b2) = some 0
      rw [depthRun_append, hb1s]
      simpa [depthRun] using hb2
    | .or :: r, hn, h =>
      have hr : r.length ≤ n := by simp only [List.length_cons] at hn; omega
      obtain ⟨b, t1, he, hb, ht⟩ := ih r hr d (by simpa [depthRun] using h)
      exact ⟨Token.or :: b, t1, by rw [he, List.cons_append], by simpa [depthRun] using hb, ht⟩
    | .negation :: r, hn, h =>
      have hr : r.length ≤ n := by simp only [List.length_cons] at hn; omega
      obtain ⟨b, t1, he, hb, ht⟩ := ih r hr d (by simpa [depthRun] using h)
      exact ⟨Token.negation :: b, t1, by rw [he, List.cons_append],
        by simpa [depthRun] using hb, ht⟩
    | .operator name value orig :: r, hn, h =>
      have hr : r.length ≤ n := by simp only [List.length_cons] at hn; omega
      obtain ⟨b, t1, he, hb, ht⟩ := ih r hr d (by simpa [depthRun] using h)
      exact ⟨Token.operator name value orig :: b, t1, by rw [he, List.cons_append],
        by simpa [depthRun] using hb, ht⟩
    | .quoted v :: r, hn, h =>
      have hr : r.length ≤ n := by simp only [List.length_cons] at hn; omega
      obtain ⟨b, t1, he, hb, ht⟩ := ih r hr d (by simpa [depthRun] using h)
      exact ⟨Token.quoted v :: b, t1, by rw [he, List.cons_append],
        by simpa [depthRun] using hb, ht⟩
    | .word v :: r, hn, h =>
      have hr : r.length ≤ n := by simp only [List.length_cons] at hn; omega
      obtain ⟨b, t1, he, hb, ht⟩ := ih r hr d (by simpa [depthRun] using h)
      exact ⟨Token.word v :: b, t1, by rw [he, List.cons_append],
        by simpa [depthRun] using hb, ht⟩

theorem balancedTokens_nil : balancedTokens [] := rfl

theorem not_balancedTokens_rparen (r : List Token) :
    ¬ balancedTokens (Token.rparen :: r) := by
  simp [balancedTokens, depthRun]

theorem not_balancedTokens_eof (r : List Token) :
    ¬ balancedTokens (Token.eof :: r) := by
  simp [balancedTokens, depthRun]

theorem balancedTokens_cons (t : Token) (r : List Token)
    (h1 : t ≠ Token.lparen) (h2 : t ≠ Token.rparen) (h3 : t ≠ Token.eof) :
    balancedTokens (t :: r) ↔ balancedTokens r := by
  cases t <;> simp_all [balancedTokens, depthRun]

theorem balancedTokens_lparen (r : List Token)
    (h : balancedTokens (Token.lparen :: r)) :
    ∃ body tail, r = body ++ Token.rparen :: tail ∧ balancedTokens body ∧
      balancedTokens tail := by
  have h1 : depthRun 1 r = some 0 := by
    simpa [balancedTokens, depthRun] using h
  obtain ⟨body, tail, he, hb, ht⟩ := depthRun_split r.length r le_rfl 0 h1
  exact ⟨body, tail, he, hb, ht⟩


/-- Joint behaviour of the recursive-descent parser on a balanced token
stream `ts` followed by a stray RPAREN: every parsing function leaves
the stray RPAREN (and everything after it) unconsumed and produces the
same node as on `ts` alone; the remainder each function leaves of `ts`
itself is balanced; `parseAndLoop` stops only at `[]` or before an OR;
and the top-level `parseOrExpr` consumes all of a balanced stream. -/
theorem parser_balanced_append : ∀ n (ts : List Token), ts.length ≤ n →
    balancedTokens ts →
    ((∀ negated post,
        parseTermCore negated (ts ++ Token.rparen :: post) =
          ((parseTermCore negated ts).1,
            (parseTermCore negated ts).2 ++ Token.rparen :: post)) ∧
      (∀ negated, balancedTokens (parseTermCore negated ts).2)) ∧
    ((∀ post,
        parseTerm (ts ++ Token.rparen :: post) =
          ((parseTerm ts).1, (parseTerm ts).2 ++ Token.rparen :: post)) ∧
      balancedTokens (parseTerm ts).2) ∧
    (∀ children,
      (∀ post,
        parseAndLoop children (ts ++ Token.rparen :: post) =
          ((parseAndLoop children ts).1,
            (parseAndLoop children ts).2 ++ Token.rparen :: post)) ∧
      balancedTokens (parseAndLoop children ts).2 ∧
      ((parseAndLoop children ts).2 = [] ∨
        ∃ r, (parseAndLoop children ts).2 = Token.or :: r)) ∧
    ((∀ post,
        parseAndExpr (ts ++ Token.rparen :: post) =
          ((parseAndExpr ts).1, (parseAndExpr ts).2 ++ Token.rparen :: post)) ∧
      balancedTokens (parseAndExpr ts).2 ∧
      ((parseAndExpr ts).2 = [] ∨ ∃ r, (parseAndExpr ts).2 = Token.or :: r) ∧
      (ts ≠ [] → (parseAndExpr ts).2.length < ts.length)) ∧
    ((ts = [] ∨ ∃ r, ts = Token.or :: r) → ∀ children post,
      parseOrLoop children (ts ++ Token.rparen :: post) =
        ((parseOrLoop children ts).1, Token.rparen :: post) ∧
      (parseOrLoop children ts).2 = []) ∧
    (∀ post,
      parseOrExpr (ts ++ Token.rparen :: post) =
        ((parseOrExpr ts).1, Token.rparen :: post) ∧
      (parseOrExpr ts).2 = []) := by
  intro n
  induction n with
  | zero =>
    intro ts hn hbal
    have hts : ts = [] := List.length_eq_zero.mp (Nat.le_zero.mp hn)
    subst hts
    have hrp : ∀ post rest,
        Token.rparen :: post ≠ Token.negation :: rest := by
      intro post rest he
      rw [List.cons.injEq] at he
      exact Token.noConfusion he.1
    have hnilneg : ∀ rest, ([] : List Token) ≠ Token.negation :: rest := by
      intro rest he
      exact List.noConfusion he
    have hrpor : Token.rparen ≠ Token.or := fun he => Token.noConfusion he
    have hcoreE : ∀ negated, parseTermCore negated [] = (none, []) :=
      fun negated => @parseTermCore_stop negated [] (Or.inl rfl)
    have hcoreR : ∀ negated post,
        parseTermCore negated (Token.rparen :: post) =
          (none, Token.rparen :: post) :=
      fun negated post =>
        @parseTermCore_stop negated (Token.rparen :: post) (Or.inl rfl)
    refine ⟨⟨fun negated post => ?_, fun negated => ?_⟩,
      ⟨fun post => ?_, ?_⟩, fun children => ⟨fun post => ?_, ?_, ?_⟩,
      ⟨fun post => ?_, ?_, ?_, fun hne => absurd rfl hne⟩,
      fun _ children post => ?_, fun post => ?_⟩
    · rw [List.nil_append, hcoreR negated post, hcoreE negated]
      simp
    · rw [hcoreE negated]
      exact balancedTokens_nil
    · rw [List.nil_append, parseTerm_not_negation (hrp post),
        parseTerm_not_negation hnilneg, hcoreR false post, hcoreE false]
      simp
    · rw [parseTerm_not_negation hnilneg, hcoreE false]
      exact balancedTokens_nil
    · rw [List.nil_append, parseAndLoop_rparen, parseAndLoop_nil]
      simp
    · rw [parseAndLoop_nil]
      exact balancedTokens_nil
    · rw [parseAndLoop_nil]
      exact Or.inl rfl
    · rw [List.nil_append, parseAndExpr_eq, parseAndExpr_eq, parseAndLoop_rparen,
        parseAndLoop_nil]
      simp
    · rw [parseAndExpr_eq, parseAndLoop_nil]
      exact balancedTokens_nil
    · rw [parseAndExpr_eq, parseAndLoop_nil]
      exact Or.inl rfl
    · rw [List.nil_append, parseOrLoop_stop children post hrpor, parseOrLoop_nil]
      exact ⟨rfl, rfl⟩
    · have e1 : parseOrExpr ([] : List Token) = (none, []) := by decide
      have e2 : parseOrExpr (Token.rparen :: post) =
          (none, Token.rparen :: post) := by
        rw [parseOrExpr_eq, parseAndExpr_eq, parseAndLoop_rparen]
        show parseOrLoop [] (Token.rparen :: post) = (none, Token.rparen :: post)
        rw [parseOrLoop_stop [] post hrpor]
        simp [finishOr]
      exact ⟨by rw [List.nil_append, e2, e1], by rw [e1]⟩
  | succ n ih =>
    intro ts hn hbal
    cases ts with
    | nil => exact ih [] (Nat.zero_le n) hbal
    | cons t tail =>
      have htl : tail.length ≤ n := by
        simp only [List.length_cons] at hn
        omega
      have hcore : (∀ negated post,
          parseTermCore negated ((t :: tail) ++ Token.rparen :: post) =
            ((parseTermCore negated (t :: tail)).1,
              (parseTermCore negated (t :: tail)).2 ++ Token.rparen :: post)) ∧
          (∀ negated, balancedTokens (parseTermCore negated (t :: tail)).2) := by
        cases t with
        | rparen => exact absurd hbal (not_balancedTokens_rparen tail)
        | eof => exact absurd hbal (not_balancedTokens_eof tail)
        | lparen =>
          obtain ⟨body, btail, hsplit, hbb, hbt⟩ := balancedTokens_lparen tail hbal
          subst hsplit
          have hblen : body.length ≤ n := by
            simp only [List.length_append, List.length_cons] at htl
            omega
          have hOE := (ih body hblen hbb).2.2.2.2.2
          constructor
          · intro negated post
            rw [List.cons_append, parseTermCore_lparen, parseTermCore_lparen,
              List.append_assoc, List.cons_append,
              (hOE (btail ++ Token.rparen :: post)).1, (hOE btail).1]
            simp [skipRParen]
          · intro negated
            rw [parseTermCore_lparen, (hOE btail).1]
            simpa [skipRParen] using hbt
        | or =>
          constructor
          · intro negated post
            rw [List.cons_append,
              @parseTermCore_stop negated
                (Token.or :: (tail ++ Token.rparen :: post)) (Or.inl rfl),
              @parseTermCore_stop negated (Token.or :: tail) (Or.inl rfl)]
            simp
          · intro negated
            rw [@parseTermCore_stop negated (Token.or :: tail) (Or.inl rfl)]
            exact hbal
        | negation =>
          constructor
          · intro negated post
            rw [List.cons_append,
              @parseTermCore_stop negated
                (Token.negation :: (tail ++ Token.rparen :: post))
                (Or.inr ⟨tail ++ Token.rparen :: post, rfl⟩),
              @parseTermCore_stop negated (Token.negation :: tail)
                (Or.inr ⟨tail, rfl⟩)]
            simp
          · intro negated
            rw [@parseTermCore_stop negated (Token.negation :: tail)
              (Or.inr ⟨tail, rfl⟩)]
            exact hbal
        | operator name value orig =>
          constructor
          · intro negated post
            rw [List.cons_append, parseTermCore_operator, parseTermCore_operator]
          · intro negated
            rw [parseTermCore_operator]
            exact (balancedTokens_cons _ tail (by simp) (by simp) (by simp)).mp hbal
        | quoted v =>
          constructor
          · intro negated post
            rw [List.cons_append, parseTermCore_quoted, parseTermCore_quoted]
          · intro negated
            rw [parseTermCore_quoted]
            exact (balancedTokens_cons _ tail (by simp) (by simp) (by simp)).mp hbal
        | word v =>
          constructor
          · intro negated post
            rw [List.cons_append, parseTermCore_word, parseTermCore_word]
          · intro negated
            rw [parseTermCore_word]
            exact (balancedTokens_cons _ tail (by simp) (by simp) (by simp)).mp hbal
      have hterm : (∀ post,
          parseTerm ((t :: tail) ++ Token.rparen :: post) =
            ((parseTerm (t :: tail)).1,
              (parseTerm (t :: tail)).2 ++ Token.rparen :: post)) ∧
          balancedTokens (parseTerm (t :: tail)).2 := by
        by_cases hneg : t = Token.negation
        · subst hneg
          have hbt : balancedTokens tail :=
            (balancedTokens_cons _ tail (by simp) (by simp) (by simp)).mp hbal
          have hic := (ih tail htl hbt).1
          constructor
          · intro post
            rw [List.cons_append, parseTerm_negation, parseTerm_negation,
              hic.1 true post]
          · rw [parseTerm_negation]
            exact hic.2 true
        · have hk1 : ∀ rest, t :: tail ≠ Token.negation :: rest := by
            intro rest he
            rw [List.cons.injEq] at he
            exact hneg he.1
          have hk2 : ∀ post rest,
              (t :: tail) ++ Token.rparen :: post ≠ Token.negation :: rest := by
            intro post rest he
            rw [List.cons_append, List.cons.injEq] at he
            exact hneg he.1
          constructor
          · intro post
            rw [parseTerm_not_negation (hk2 post), parseTerm_not_negation hk1]
            exact hcore.1 false post
          · rw [parseTerm_not_negation hk1]
            exact hcore.2 false
      have handLoop : ∀ children,
          (∀ post, parseAndLoop children ((t :: tail) ++ Token.rparen :: post) =
            ((parseAndLoop children (t :: tail)).1,
              (parseAndLoop children (t :: tail)).2 ++ Token.rparen :: post)) ∧
          balancedTokens (parseAndLoop children (t :: tail)).2 ∧
          ((parseAndLoop children (t :: tail)).2 = [] ∨
            ∃ r, (parseAndLoop children (t :: tail)).2 = Token.or :: r) := by
        intro children
        by_cases hcons : consumableHead (t :: tail) = true
        · have hcons2 : ∀ post,
              consumableHead (t :: (tail ++ Token.rparen :: post)) = true := by
            intro post
            cases t <;> simp_all [consumableHead]
          have hlt : (parseTerm (t :: tail)).2.length < (t :: tail).length :=
            parseTerm_consumes hcons
          have hrn : (parseTerm (t :: tail)).2.length ≤ n := by
            simp only [List.length_cons] at hlt
            omega
          have hihL := (ih _ hrn hterm.2).2.2.1
            (pushNode children (parseTerm (t :: tail)).1)
          refine ⟨fun post => ?_, ?_, ?_⟩
          · rw [List.cons_append, parseAndLoop_term children (hcons2 post),
              parseAndLoop_term children hcons, ← List.cons_append, hterm.1 post]
            exact hihL.1 post
          · rw [parseAndLoop_term children hcons]
            exact hihL.2.1
          · rw [parseAndLoop_term children hcons]
            exact hihL.2.2
        · cases t with
          | rparen => exact absurd hbal (not_balancedTokens_rparen tail)
          | eof => exact absurd hbal (not_balancedTokens_eof tail)
          | lparen => simp [consumableHead] at hcons
          | negation => simp [consumableHead] at hcons
          | operator name value orig => simp [consumableHead] at hcons
          | quoted v => simp [consumableHead] at hcons
          | word v => simp [consumableHead] at hcons
          | or =>
            have hbt : balancedTokens tail :=
              (balancedTokens_cons _ tail (by simp) (by simp) (by simp)).mp hbal
            by_cases hemp : children.isEmpty = true
            · have hihL := (ih tail htl hbt).2.2.1
                (children ++ [SearchNode.term (.text "OR".toList) false])
              refine ⟨fun post => ?_, ?_, ?_⟩
              · rw [List.cons_append, parseAndLoop_or, if_pos hemp,
                  parseAndLoop_or, if_pos hemp]
                exact hihL.1 post
              · rw [parseAndLoop_or, if_pos hemp]
                exact hihL.2.1
              · rw [parseAndLoop_or, if_pos hemp]
                exact hihL.2.2
            · refine ⟨fun post => ?_, ?_, ?_⟩
              · rw [List.cons_append, parseAndLoop_or, if_neg hemp,
                  parseAndLoop_or, if_neg hemp]
                simp
              · rw [parseAndLoop_or, if_neg hemp]
                exact hbal
              · rw [parseAndLoop_or, if_neg hemp]
                exact Or.inr ⟨tail, rfl⟩
      have handExpr : (∀ post,
          parseAndExpr ((t :: tail) ++ Token.rparen :: post) =
            ((parseAndExpr (t :: tail)).1,
              (parseAndExpr (t :: tail)).2 ++ Token.rparen :: post)) ∧
          balancedTokens (parseAndExpr (t :: tail)).2 ∧
          ((parseAndExpr (t :: tail)).2 = [] ∨
            ∃ r, (parseAndExpr (t :: tail)).2 = Token.or :: r) ∧
          (t :: tail ≠ [] →
            (parseAndExpr (t :: tail)).2.length < (t :: tail).length) := by
        obtain ⟨ha1, ha2, ha3⟩ := handLoop []
        refine ⟨fun post => ?_, ?_, ?_, fun _ => ?_⟩
        · rw [parseAndExpr_eq, parseAndExpr_eq]
          exact ha1 post
        · rw [parseAndExpr_eq]
          exact ha2
        · rw [parseAndExpr_eq]
          exact ha3
        · rw [parseAndExpr_eq]
          by_cases hcons : consumableHead (t :: tail) = true
          · have h1 := parseAndLoop_rest_le (pushNode [] (parseTerm (t :: tail)).1)
              (parseTerm (t :: tail)).2
            have h2 := parseTerm_consumes hcons
            rw [parseAndLoop_term [] hcons]
            omega
          · cases t with
            | rparen => exact absurd hbal (not_balancedTokens_rparen tail)
            | eof => exact absurd hbal (not_balancedTokens_eof tail)
            | lparen => simp [consumableHead] at hcons
            | negation => simp [consumableHead] at hcons
            | operator name value orig => simp [consumableHead] at hcons
            | quoted v => simp [consumableHead] at hcons
            | word v => simp [consumableHead] at hcons
            | or =>
              rw [parseAndLoop_or,
                if_pos (show ([] : List SearchNode).isEmpty = true from rfl)]
              have h1 := parseAndLoop_rest_le
                (([] : List SearchNode) ++
                  [SearchNode.term (.text "OR".toList) false]) tail
              simp only [List.length_cons]
              omega
      have horLoop : ((t :: tail) = [] ∨ ∃ r, t :: tail = Token.or :: r) →
          ∀ children post,
          parseOrLoop children ((t :: tail) ++ Token.rparen :: post) =
            ((parseOrLoop children (t :: tail)).1, Token.rparen :: post) ∧
          (parseOrLoop children (t :: tail)).2 = [] := by
        rintro (h | ⟨r, hr⟩) children post
        · exact absurd h (by simp)
        · rw [List.cons.injEq] at hr
          obtain ⟨rfl, rfl⟩ := hr
          have hbt : balancedTokens tail :=
            (balancedTokens_cons _ tail (by simp) (by simp) (by simp)).mp hbal
          have hAE := (ih tail htl hbt).2.2.2.1
          have hlen : (parseAndExpr tail).2.length ≤ n :=
            le_trans (parseAndExpr_rest_le tail) htl
          have hOL := (ih _ hlen hAE.2.1).2.2.2.2.1 hAE.2.2.1
            (pushNode children (parseAndExpr tail).1) post
          rw [List.cons_append, parseOrLoop_or, parseOrLoop_or, hAE.1 post]
          exact ⟨hOL.1, hOL.2⟩
      have horExpr : ∀ post,
          parseOrExpr ((t :: tail) ++ Token.rparen :: post) =
            ((parseOrExpr (t :: tail)).1, Token.rparen :: post) ∧
          (parseOrExpr (t :: tail)).2 = [] := by
        intro post
        have hlen : (parseAndExpr (t :: tail)).2.length ≤ n := by
          have := handExpr.2.2.2 (by simp)
          simp only [List.length_cons] at this
          omega
        have hOL := (ih _ hlen handExpr.2.1).2.2.2.2.1 handExpr.2.2.1
          (pushNode [] (parseAndExpr (t :: tail)).1) post
        rw [parseOrExpr_eq, parseOrExpr_eq, handExpr.1 post]
        exact ⟨hOL.1, hOL.2⟩
      exact ⟨hcore, hterm, handLoop, handExpr, horLoop, horExpr⟩


/-- **C10**: everything after an unmatched closing parenthesis is
silently discarded. For every balanced token stream `pre`, parsing
`pre ++ RPAREN :: post` yields the same node as parsing `pre` alone —
the stray RPAREN stops the top-level parse and `post` is never
consumed; concretely `"a ) b"` parses to just the text term `a`, and
`") hello"` parses to `none` even though `hello` follows. -/
theorem claim_C10_unmatched_rparen_discard :
    (∀ pre post, balancedTokens pre →
      parseTokens (pre ++ Token.rparen :: post) = parseTokens pre) ∧
    parseSearchQuery "a ) b" = some (.term (.text "a".toList) false) ∧
    parseSearchQuery ") hello" = none := by
  refine ⟨fun pre post hbal => ?_, by decide, by decide⟩
  have h := (parser_balanced_append pre.length pre le_rfl hbal).2.2.2.2.2 post
  rw [parseTokens_eq, parseTokens_eq, h.1]

/-- Witness for C10 at a concrete balanced prefix `[a]` and discarded
suffix `[b, EOF]`. -/
theorem claim_C10_unmatched_rparen_discard_witness :
    balancedTokens [Token.word "a".toList] ∧
    parseTokens ([Token.word "a".toList] ++
        Token.rparen :: [Token.word "b".toList, Token.eof]) =
      parseTokens [Token.word "a".toList] :=
  ⟨by decide, claim_C10_unmatched_rparen_discard.1 [Token.word "a".toList]
    [Token.word "b".toList, Token.eof] (by decide)⟩

/-- Witness for the amended C7 at the concrete word `foo:bar`. -/
theorem claim_C7_tokenize_word_amended_witness :
    "foo:bar".toList ≠ [] ∧
    tokenize "foo:bar".toList = [classifyWord "foo:bar".toList, Token.eof] :=
  ⟨by decide,
    (claim_C7_tokenize_word_amended "foo:bar".toList (by decide) (by decide)
      (by
        intro c hc
        rw [show ("foo:bar".toList.head?) = some 'f' from rfl,
          Option.some.injEq] at hc
        subst hc
        decide)).1⟩

end Hollo

